import Mathlib

/-!
# querystring: name-case conversion and record encoding

A shallow embedding of `name.go`, `tag.go`, `options.go` and `query.go`.

A Go `string` is a sequence of bytes; it is modelled as a `List Nat` whose
elements are the bytes.  A `rune` is a `Nat` (a code point).  The library
functions of Go's `unicode` and `unicode/utf8` packages that the source
calls are modelled below: exactly for code points up to U+00FF (the
`properties` array and the Latin-1 part of `CaseRanges`), and through the
parameter `UnicodeTables` above that.
-/

namespace Querystring

/-- A Go string: its bytes, in order. -/
abbrev GoString := List Nat

/-- The range tables of Go's `unicode` package for code points above
U+00FF (`Letter`, `Number`, `Upper` and `CaseRanges`).  They are not part
of the repository and are taken as a parameter. -/
structure UnicodeTables where
  letter : Nat → Bool
  number : Nat → Bool
  upper : Nat → Bool
  toLower : Nat → Nat
  toUpper : Nat → Nat

/-- Tables that classify nothing above U+00FF: used to evaluate the
functions on inputs whose runes all lie below U+0100, where the tables are
not consulted. -/
def noTables : UnicodeTables :=
  { letter := fun _ => false, number := fun _ => false, upper := fun _ => false,
    toLower := fun r => r, toUpper := fun r => r }

/-- Upper-case letters of `unicode.properties` (entries `pLu`). -/
def latin1Upper (r : Nat) : Bool :=
  (0x41 ≤ r && r ≤ 0x5A) || (0xC0 ≤ r && r ≤ 0xD6) || (0xD8 ≤ r && r ≤ 0xDE)

/-- Letters of `unicode.properties` (entries `pLu`, `pLl`, `pLo`). -/
def latin1Letter (r : Nat) : Bool :=
  (0x41 ≤ r && r ≤ 0x5A) || (0x61 ≤ r && r ≤ 0x7A) || r == 0xAA || r == 0xB5 || r == 0xBA
    || (0xC0 ≤ r && r ≤ 0xD6) || (0xD8 ≤ r && r ≤ 0xF6) || (0xF8 ≤ r && r ≤ 0xFF)

/-- Numbers of `unicode.properties` (entries `pN`). -/
def latin1Number (r : Nat) : Bool :=
  (0x30 ≤ r && r ≤ 0x39) || r == 0xB2 || r == 0xB3 || r == 0xB9 || (0xBC ≤ r && r ≤ 0xBE)

/-- Go `unicode.IsLetter`. -/
def IsLetter (T : UnicodeTables) (r : Nat) : Bool :=
  if r ≤ 0xFF then latin1Letter r else T.letter r

/-- Go `unicode.IsNumber`. -/
def IsNumber (T : UnicodeTables) (r : Nat) : Bool :=
  if r ≤ 0xFF then latin1Number r else T.number r

/-- Go `unicode.IsUpper`. -/
def IsUpper (T : UnicodeTables) (r : Nat) : Bool :=
  if r ≤ 0xFF then latin1Upper r else T.upper r

/-- Go `unicode.ToLower`: ASCII fast path, then `CaseRanges`. -/
def ToLower (T : UnicodeTables) (r : Nat) : Nat :=
  if r ≤ 0x7F then (if 0x41 ≤ r ∧ r ≤ 0x5A then r + 32 else r)
  else if r ≤ 0xFF then
    (if (0xC0 ≤ r ∧ r ≤ 0xD6) ∨ (0xD8 ≤ r ∧ r ≤ 0xDE) then r + 32 else r)
  else T.toLower r

/-- Go `unicode.ToUpper`: ASCII fast path, then `CaseRanges`. -/
def ToUpper (T : UnicodeTables) (r : Nat) : Nat :=
  if r ≤ 0x7F then (if 0x61 ≤ r ∧ r ≤ 0x7A then r - 32 else r)
  else if r ≤ 0xFF then
    (if r = 0xB5 then 0x39C
     else if (0xE0 ≤ r ∧ r ≤ 0xF6) ∨ (0xF8 ≤ r ∧ r ≤ 0xFE) then r - 32
     else if r = 0xFF then 0x178
     else r)
  else T.toUpper r

/-- Go `utf8.AppendRune`, what `strings.Builder.WriteRune` appends. -/
def utf8Encode (r : Nat) : GoString :=
  if r ≤ 0x7F then [r]
  else if r ≤ 0x7FF then [0xC0 + r / 64, 0x80 + r % 64]
  else if r > 0x10FFFF ∨ (0xD800 ≤ r ∧ r ≤ 0xDFFF) then [0xEF, 0xBF, 0xBD]
  else if r ≤ 0xFFFF then [0xE0 + r / 4096, 0x80 + (r / 64) % 64, 0x80 + r % 64]
  else [0xF0 + r / 262144, 0x80 + (r / 4096) % 64, 0x80 + (r / 64) % 64, 0x80 + r % 64]

/-- The bytes of a string literal (its UTF-8 encoding). -/
def str (s : String) : GoString :=
  s.toList.flatMap (fun c => utf8Encode c.toNat)

/-- A UTF-8 continuation byte. -/
def isCont (b : Nat) : Bool := 0x80 ≤ b && b ≤ 0xBF

/-- Go's decoding of the first rune of a string, as `range` does it: the
rune and the number of bytes it takes (`RuneError`, width 1, for a byte
that starts no valid encoding). -/
def decodeRune : GoString → Nat × Nat
  | [] => (0xFFFD, 0)
  | b0 :: rest =>
    if b0 < 0x80 then (b0, 1)
    else if 0xC2 ≤ b0 ∧ b0 ≤ 0xDF then
      match rest with
      | b1 :: _ => if isCont b1 then ((b0 % 32) * 64 + b1 % 64, 2) else (0xFFFD, 1)
      | _ => (0xFFFD, 1)
    else if 0xE0 ≤ b0 ∧ b0 ≤ 0xEF then
      let lo := if b0 = 0xE0 then 0xA0 else 0x80
      let hi := if b0 = 0xED then 0x9F else 0xBF
      match rest with
      | b1 :: b2 :: _ =>
        if lo ≤ b1 ∧ b1 ≤ hi ∧ isCont b2 then
          ((b0 % 16) * 4096 + (b1 % 64) * 64 + b2 % 64, 3)
        else (0xFFFD, 1)
      | _ => (0xFFFD, 1)
    else if 0xF0 ≤ b0 ∧ b0 ≤ 0xF4 then
      let lo := if b0 = 0xF0 then 0x90 else 0x80
      let hi := if b0 = 0xF4 then 0x8F else 0xBF
      match rest with
      | b1 :: b2 :: b3 :: _ =>
        if lo ≤ b1 ∧ b1 ≤ hi ∧ isCont b2 ∧ isCont b3 then
          ((b0 % 8) * 262144 + (b1 % 64) * 4096 + (b2 % 64) * 64 + b3 % 64, 4)
        else (0xFFFD, 1)
      | _ => (0xFFFD, 1)
    else (0xFFFD, 1)

/-- The iterations of `for i, char := range s` from byte offset `i` on:
the pairs `(i, char)`.  `fuel` bounds the number of iterations. -/
def rangeFrom : Nat → Nat → GoString → List (Nat × Nat)
  | 0, _, _ => []
  | _ + 1, _, [] => []
  | fuel + 1, i, b :: rest =>
    let d := decodeRune (b :: rest)
    (i, d.1) :: rangeFrom fuel (i + d.2) (rest.drop (d.2 - 1))

/-- The iterations of `for i, char := range s`. -/
def rangeString (s : GoString) : List (Nat × Nat) :=
  rangeFrom s.length 0 s

/-- The byte `s[i]` converted to a rune, `rune(s[i])`. -/
def byteAt (s : GoString) (i : Nat) : Nat := s.getD i 0

/-- Source `checkSpeChars`: one of `_`, `-`, `.`. -/
def checkSpeChars (r : Nat) : Bool :=
  if r = 0x5F ∨ r = 0x2D ∨ r = 0x2E then true else false

/-- Source `checkCompliance`. -/
def checkCompliance (T : UnicodeTables) (r : Nat) : Bool :=
  if IsLetter T r ∨ IsNumber T r ∨ checkSpeChars r then true else false

/-- The loop of `ToCamelCase` from index 1 on: `rest` holds the bytes not
yet visited, `builder` what was written; the result is what the function
returns. -/
def camelLoop (T : UnicodeTables) : GoString → Bool → GoString → GoString
  | [], _, builder => builder
  | r :: rest, isSeparator, builder =>
    if !checkCompliance T r then []
    else if checkSpeChars r then camelLoop T rest true builder
    else if isSeparator then camelLoop T rest false (builder ++ utf8Encode (ToUpper T r))
    else camelLoop T rest isSeparator (builder ++ utf8Encode r)

/-- Source `ToCamelCase`. -/
def ToCamelCase (T : UnicodeTables) (s : GoString) : GoString :=
  let l := s.length
  if l = 0 then []
  else if !IsLetter T (byteAt s 0) ||
      (!IsLetter T (byteAt s (l - 1)) && !IsNumber T (byteAt s (l - 1))) then []
  else camelLoop T (s.drop 1) false (utf8Encode (ToLower T (byteAt s 0)))

/-- The loop of `ToPascalCase` from index 1 on. -/
def pascalLoop (T : UnicodeTables) : GoString → Bool → GoString → GoString
  | [], _, builder => builder
  | r :: rest, isSeparator, builder =>
    if !checkCompliance T r then []
    else if isSeparator then pascalLoop T rest false (builder ++ utf8Encode (ToUpper T r))
    else if checkSpeChars r then pascalLoop T rest true builder
    else pascalLoop T rest isSeparator (builder ++ utf8Encode r)

/-- Source `ToPascalCase`. -/
def ToPascalCase (T : UnicodeTables) (s : GoString) : GoString :=
  let l := s.length
  if l = 0 then []
  else if !IsLetter T (byteAt s 0) ||
      (!IsLetter T (byteAt s (l - 1)) && !IsNumber T (byteAt s (l - 1))) then []
  else pascalLoop T (s.drop 1) false (utf8Encode (ToUpper T (byteAt s 0)))

/-- One iteration of the loop of `ToSnakeCase`, on the state
`(result, isSeparator)`, for the pair `(i, char)` of the range. -/
def snakeStep (T : UnicodeTables) (input : GoString) (st : GoString × Bool)
    (ic : Nat × Nat) : GoString × Bool :=
  let result := st.1
  let isSeparator := st.2
  let i := ic.1
  let char := ic.2
  if i = 0 then (result ++ utf8Encode (ToLower T char), isSeparator)
  else if checkSpeChars char && !isSeparator then (result ++ [0x5F], true)
  else
    let under : Bool :=
      if IsLetter T char then
        (!isSeparator && IsUpper T char) || IsNumber T (byteAt input (i - 1))
      else if IsNumber T char then !isSeparator
      else false
    ((if under then result ++ [0x5F] else result) ++ utf8Encode (ToLower T char), false)

/-- Source `ToSnakeCase`. -/
def ToSnakeCase (T : UnicodeTables) (input : GoString) : GoString :=
  if input.length = 0 then []
  else
    let l := input.length
    if !IsLetter T (byteAt input 0) ||
        (!IsLetter T (byteAt input (l - 1)) && !IsNumber T (byteAt input (l - 1))) then []
    else ((rangeString input).foldl (snakeStep T input) ([], false)).1

/-- Source `Name.Convert`; the strategy `n` is a string. -/
def Convert (T : UnicodeTables) (n : GoString) (name : GoString) : GoString :=
  if n = str "camel" then ToCamelCase T name
  else if n = str "pascal" then ToPascalCase T name
  else if n = str "snake" then ToSnakeCase T name
  else name

/-! ## tag.go and options.go -/

/-- Source `Name.IsEmpty`. -/
def IsEmpty (n : GoString) : Bool := n == []

/-- Go `strings.Split(s, sep)` for a one-byte separator. -/
def splitOn (sep : Nat) : GoString → List GoString
  | [] => [[]]
  | c :: cs =>
    if c = sep then [] :: splitOn sep cs
    else
      match splitOn sep cs with
      | [] => [[c]]
      | h :: t => (c :: h) :: t

/-- Source `TagOptions.Contains`. -/
def Contains : List GoString → GoString → Bool
  | [], _ => false
  | s :: rest, opt => if s = opt then true else Contains rest opt

/-- Source `option` (options.go). -/
structure option where
  useName : GoString
  skipField : GoString
  tag : GoString

/-- Source `defaultOption`. -/
def defaultOption : option :=
  { useName := str "snake", skipField := str "-", tag := str "url" }

/-- Source `WithUseName`. -/
def WithUseName (useName : GoString) (o : option) : option := { o with useName := useName }

/-- Source `WithSkipField`. -/
def WithSkipField (skipField : GoString) (o : option) : option :=
  { o with skipField := skipField }

/-- Source `WithTag`. -/
def WithTag (tag : GoString) (o : option) : option := { o with tag := tag }

/-- Source `defaultTag`. -/
structure defaultTag where
  tagType : GoString
  skip : GoString
  useName : GoString

/-- Source `NewTag`: the options are applied in order to `defaultOption`. -/
def NewTag (opts : List (option → option)) : defaultTag :=
  let opt := opts.foldl (fun o f => f o) defaultOption
  { tagType := opt.tag, skip := opt.skipField, useName := opt.useName }

/-- Source `defaultTag.ParseTag`. -/
def ParseTag (tag : GoString) : GoString × List GoString :=
  match splitOn 0x2C tag with
  | [] => ([], [])
  | name :: opts => (name, opts)

/-! ## query.go: the values seen through `reflect` -/

/-- A Go `error`: its message. -/
abbrev GoError := GoString

mutual
/-- A `reflect.Value`, by kind, with what the source reads from it.
`float` carries whether it is zero and its `%f` rendering, `time` (a
`time.Time`, the only value whose type is `timeType`) whether `IsZero()`
holds and its `RFC3339Nano` rendering, `struct` and `other` (chan, func,
complex, unsafe pointer) the result of `IsZero()` when the type has such a
method.  A nil slice is `slice []`. -/
inductive Value where
  | string (s : GoString)
  | int (i : Int)
  | uint (n : Nat)
  | uintptr (n : Nat)
  | bool (b : Bool)
  | float (isZero : Bool) (formatted : GoString)
  | slice (elems : List Value)
  | array (elems : List Value)
  | map (keyIsString : Bool) (entries : List (GoString × Value))
  | ptr (elem : Option Value)
  | iface (isNil : Bool)
  | time (isZero : Bool) (rfc3339Nano : GoString)
  | struct (fields : List Field) (isZero : Option Bool)
  | other (isZero : Option Bool)
/-- A field of a struct value: its `reflect.StructField` (name, package
path, embedded flag, tag as key/value pairs), the result of `Encode()` when
the field's type implements `Encoder`, and its value. -/
inductive Field where
  | mk (Name : GoString) (PkgPath : GoString) (Anonymous : Bool)
      (Tag : List (GoString × GoString))
      (encode : Option (Except GoError (List GoString))) (value : Value)
end

/-- The field's name, `sf.Name`. -/
def Field.Name : Field → GoString
  | .mk n _ _ _ _ _ => n

/-- The field's package path, `sf.PkgPath` (empty when exported). -/
def Field.PkgPath : Field → GoString
  | .mk _ p _ _ _ _ => p

/-- The field's embedded flag, `sf.Anonymous`. -/
def Field.Anonymous : Field → Bool
  | .mk _ _ a _ _ _ => a

/-- The field's tag, `sf.Tag`, as key/value pairs. -/
def Field.Tag : Field → List (GoString × GoString)
  | .mk _ _ _ t _ _ => t

/-- The result of the value's `Encode()` when the field's type implements
`Encoder`. -/
def Field.encode : Field → Option (Except GoError (List GoString))
  | .mk _ _ _ _ e _ => e

/-- The field's value, `val.Field(i)`. -/
def Field.value : Field → Value
  | .mk _ _ _ _ _ v => v

/-- Go `reflect.StructTag.Get`: the value under `key`, or the empty string. -/
def tagGet (tag : List (GoString × GoString)) (key : GoString) : GoString :=
  (tag.lookup key).getD []

/-- Source `defaultTag.Get`. -/
def defaultTag.Get (T : UnicodeTables) (t : defaultTag) (field : Field) : GoString × Bool :=
  let tag := tagGet field.Tag t.tagType
  if tag = t.skip then ([], false)
  else if tag = [] ∧ !IsEmpty t.useName then (Convert T t.useName field.Name, true)
  else (tag, true)

/-- Go `url.Values`: the keys in order of first insertion, each with its
values. -/
abbrev UrlValues := List (GoString × List GoString)

/-- Go `url.Values.Add`. -/
def Add : UrlValues → GoString → GoString → UrlValues
  | [], key, value => [(key, [value])]
  | (k, xs) :: rest, key, value =>
    if k = key then (k, xs ++ [value]) :: rest else (k, xs) :: Add rest key value

/-- Go `url.Values.Get`: the first value under `key`, or the empty string. -/
def Get (vs : UrlValues) (key : GoString) : GoString :=
  match vs.lookup key with
  | some (x :: _) => x
  | _ => []

/-- Go `fmt.Sprintf("%d", n)` for an unsigned integer. -/
def formatUint (n : Nat) : GoString := (Nat.toDigits 10 n).map Char.toNat

/-- Go `fmt.Sprintf("%d", i)` for a signed integer. -/
def formatInt : Int → GoString
  | .ofNat n => formatUint n
  | .negSucc n => 0x2D :: formatUint (n + 1)

/-- Go `fmt.Sprintf("%t", b)`. -/
def formatBool (b : Bool) : GoString := if b then str "true" else str "false"

/-- Source `isEmptyValue`, when it returns.  For a kind outside the switch
the source calls `v.Interface()`, which panics on a value reached through an
unexported embedded field: `isEmptyValueReads` and `fieldStepPanics`. -/
def isEmptyValue : Value → Bool
  | .array elems => elems.length == 0
  | .map _ entries => entries.length == 0
  | .slice elems => elems.length == 0
  | .string s => s.length == 0
  | .bool b => !b
  | .int i => i == 0
  | .uint n => n == 0
  | .uintptr n => n == 0
  | .float isZero _ => isZero
  | .iface isNil => isNil
  | .ptr elem => elem.isNone
  | .time isZero _ => isZero
  | .struct _ (some z) => z
  | .struct _ none => false
  | .other (some z) => z
  | .other none => false

/-- Source `valueToString`, when it returns.  For a `time.Time` the source
calls `value.Interface()`, which panics on a value reached through an
unexported embedded field: `valueToStringReads` and `fieldStepPanics`. -/
def valueToString : Value → GoString
  | .time _ rfc3339Nano => rfc3339Nano
  | .string s => s
  | .int i => formatInt i
  | .uint n => formatUint n
  | .float _ formatted => formatted
  | .bool b => formatBool b
  | _ => []

/-- The `switch sv.Kind()` of `reflectValue`: the entries it adds under
`name`. -/
def addByKind (values : UrlValues) (name : GoString) : Value → UrlValues
  | .slice elems => elems.foldl (fun vs e => Add vs name (valueToString e)) values
  | .array elems => elems.foldl (fun vs e => Add vs name (valueToString e)) values
  | .string s => Add values name s
  | .int i => Add values name (formatInt i)
  | .uint n => Add values name (formatUint n)
  | .bool b => Add values name (formatBool b)
  | _ => values

/-- Source `Converter.reflectValue`, as a recursion over the fields not
yet visited: `continue` goes on with the rest, `break` and the end of the
loop return the values, `return err` returns the error.  This is what the
call returns when no iteration panics; `reflectValueOutcome` has the
panics. -/
def reflectValue (T : UnicodeTables) (c : defaultTag) :
    UrlValues → List Field → Except GoError UrlValues
  | values, [] => .ok values
  | values, sf :: rest =>
    if sf.PkgPath ≠ [] ∧ !sf.Anonymous then reflectValue T c values rest
    else
      let sv := sf.value
      let got := c.Get T sf
      if !got.2 then reflectValue T c values rest
      else
        let parsed := ParseTag got.1
        let name := parsed.1
        let opts := parsed.2
        if Contains opts (str "omitempty") && isEmptyValue sv then reflectValue T c values rest
        else
          match sv with
          | .time _ _ => reflectValue T c (Add values name (valueToString sv)) rest
          | _ =>
            match sf.encode with
            | some (.error err) => .error err
            | some (.ok encoded) =>
              reflectValue T c (encoded.foldl (fun vs v => Add vs name v) values) rest
            | none =>
              match sv with
              | .ptr none => .ok values
              | .ptr (some elem) => reflectValue T c (addByKind values name elem) rest
              | _ => reflectValue T c (addByKind values name sv) rest

/-- The outcome of one iteration of the loop of `reflectValue`: go on to
the next field with the given values, or leave the function with a
result. -/
inductive Step where
  | next (values : UrlValues)
  | done (result : Except GoError UrlValues)

/-- One iteration of the loop of `reflectValue`, for the field `sf`, when
it does not panic (`fieldStepPanics`). -/
def fieldStep (T : UnicodeTables) (c : defaultTag) (values : UrlValues) (sf : Field) : Step :=
  if sf.PkgPath ≠ [] ∧ !sf.Anonymous then .next values
  else
    let sv := sf.value
    let got := c.Get T sf
    if !got.2 then .next values
    else
      let parsed := ParseTag got.1
      let name := parsed.1
      let opts := parsed.2
      if Contains opts (str "omitempty") && isEmptyValue sv then .next values
      else
        match sv with
        | .time _ _ => .next (Add values name (valueToString sv))
        | _ =>
          match sf.encode with
          | some (.error err) => .done (.error err)
          | some (.ok encoded) => .next (encoded.foldl (fun vs v => Add vs name v) values)
          | none =>
            match sv with
            | .ptr none => .done (.ok values)
            | .ptr (some elem) => .next (addByKind values name elem)
            | _ => .next (addByKind values name sv)

/-- The argument of `Values`, an `interface{}`: a `url.Values`, `nil`, or
any other value. -/
inductive Input where
  | urlValues (val : UrlValues)
  | nil
  | value (v : Value)

/-- The loop over a map of `Converter.Values`, over the entries in
iteration order. -/
def addMapEntries : UrlValues → List (GoString × Value) → Except GoError UrlValues
  | values, [] => .ok values
  | values, (k, .string s) :: rest => addMapEntries (Add values k s) rest
  | _, _ :: _ => .error (str "map value must be a string")

/-- Source `Converter.Values`, when it returns (`Converter.ValuesOutcome` has
the panics).  A `time.Time` is a struct whose fields are all unexported, so
`reflectValue` adds nothing for it. -/
def Converter.Values (T : UnicodeTables) (c : defaultTag) : Input → Except GoError UrlValues
  | .urlValues val => .ok val
  | .nil => .ok []
  | .value (.map keyIsString entries) =>
    if !keyIsString then .error (str "map key must be a string")
    else addMapEntries [] entries
  | .value (.ptr none) => .ok []
  | .value (.ptr (some (.struct fields _))) => reflectValue T c [] fields
  | .value (.ptr (some (.time _ _))) => .ok []
  | .value (.struct fields _) => reflectValue T c [] fields
  | .value (.time _ _) => .ok []
  | .value _ => .error (str "unsupported type reflect.Kind")

/-- Source `Values`: `Converter.Values` with `NewTag()`. -/
def Values (T : UnicodeTables) (v : Input) : Except GoError UrlValues :=
  Converter.Values T (NewTag []) v

/-! ## Sample records -/

/-- A field `A *string` with tag `url:"a"`, nil. -/
def fieldNilPtr : Field := .mk (str "A") [] false [(str "url", str "a")] none (.ptr none)

/-- A field `B string` with tag `url:"b"`, holding `"x"`. -/
def fieldB : Field := .mk (str "B") [] false [(str "url", str "b")] none (.string (str "x"))

/-- A field `Y string` with tag `url:"y"`, holding `"w"`. -/
def fieldY : Field := .mk (str "Y") [] false [(str "url", str "y")] none (.string (str "w"))

/-- A field `X string` with tag `url:"x"`, holding `"v"`. -/
def fieldX : Field := .mk (str "X") [] false [(str "url", str "x")] none (.string (str "v"))

/-- An embedded field `Inner` of type `struct { X string }`, untagged. -/
def fieldInner : Field := .mk (str "Inner") [] true [] none (.struct [fieldX] none)

/-! ## What the specification says, in its own words -/

/-- The validity condition of the specification for a name: non-empty,
first character a letter, last character a letter or a digit, every other
character a letter, a digit or one of `_`, `-`, `.`.  The characters are
the bytes of `s`, each read as a rune, as the source reads them. -/
def validName (T : UnicodeTables) (s : GoString) : Bool :=
  !s.isEmpty && IsLetter T (byteAt s 0)
    && (IsLetter T (byteAt s (s.length - 1)) || IsNumber T (byteAt s (s.length - 1)))
    && ((s.drop 1).dropLast).all
        (fun c => IsLetter T c || IsNumber T c || c == 0x5F || c == 0x2D || c == 0x2E)

/-- What the specification says `camel` writes for the characters after
the first: a separator is dropped, a character that follows a separator is
uppercased, any other character is written unchanged.  `prev` is the
character just before. -/
def camelTail (T : UnicodeTables) (prev : Nat) : GoString → GoString
  | [] => []
  | c :: rest =>
    (if checkSpeChars c then []
     else if checkSpeChars prev then utf8Encode (ToUpper T c)
     else utf8Encode c) ++ camelTail T c rest

/-- What the specification says `camel` returns on a valid name: the
lowercased first character, then `camelTail`. -/
def camelSpec (T : UnicodeTables) : GoString → GoString
  | [] => []
  | a :: t => utf8Encode (ToLower T a) ++ camelTail T a t

/-- The check `ToSnakeCase` makes before its loop: the input is not empty,
its first byte is a letter, its last byte a letter or a number. -/
def snakeAccepts (T : UnicodeTables) (input : GoString) : Bool :=
  !input.isEmpty && IsLetter T (byteAt input 0)
    && (IsLetter T (byteAt input (input.length - 1))
        || IsNumber T (byteAt input (input.length - 1)))

/-- What the loop of `ToSnakeCase` writes for the iterations `rs` when it
enters them with the flag `isSeparator`. -/
def snakeWritten (T : UnicodeTables) (input : GoString) (isSeparator : Bool)
    (rs : List (Nat × Nat)) : GoString :=
  (rs.foldl (snakeStep T input) ([], isSeparator)).1

/-- An ASCII letter. -/
def isAsciiLetter (c : Nat) : Bool := (0x41 ≤ c && c ≤ 0x5A) || (0x61 ≤ c && c ≤ 0x7A)

/-- An uppercase ASCII letter. -/
def isAsciiUpper (c : Nat) : Bool := 0x41 ≤ c && c ≤ 0x5A

/-- The lowercase of an ASCII letter. -/
def asciiLower (c : Nat) : Nat := if isAsciiUpper c then c + 32 else c

/-- The input lowercased, with one `_` before each character other than
the first that was uppercase. -/
def snakeOfLetters : GoString → GoString
  | [] => []
  | a :: t =>
    asciiLower a :: t.flatMap (fun c => if isAsciiUpper c then [0x5F, asciiLower c] else [c])

/-- Whether a value is of kind `String`. -/
def isStringKind : Value → Bool
  | .string _ => true
  | _ => false

/-- A Go `map[string]string` as a `reflect.Value`: string keys, and the
entries in iteration order, each value of kind `String`. -/
def stringMap (m : List (GoString × GoString)) : Value :=
  .map true (m.map (fun kv => (kv.1, .string kv.2)))

/-- Encoding the result of an encoding: `Values(Values(v))`, the error of
the first call when it fails. -/
def valuesTwice (T : UnicodeTables) (c : defaultTag) (v : Input) : Except GoError UrlValues :=
  match Converter.Values T c v with
  | .ok r => Converter.Values T c (.urlValues r)
  | .error e => .error e

/-- A field `Foo string` with tag `url:",omitempty"`, holding `"x"`. -/
def fieldOmitNoName : Field :=
  .mk (str "Foo") [] false [(str "url", str ",omitempty")] none (.string (str "x"))

/-- A field `HelloWorld string` without tag, holding `"x"`. -/
def fieldHelloWorld : Field := .mk (str "HelloWorld") [] false [] none (.string (str "x"))

/-- The output name the loop of `reflectValue` uses for a field: the first
segment of what `Get` returns. -/
def resolvedName (T : UnicodeTables) (c : defaultTag) (f : Field) : GoString :=
  (ParseTag (c.Get T f).1).1

/-- Go `v[key]` on a `url.Values`: the values under `key`, none when the
key is absent. -/
def valuesOf (vs : UrlValues) (key : GoString) : List GoString :=
  (vs.lookup key).getD []

/-- The values the loop of `reflectValue` holds after the fields `fields`,
when it goes through all of them (no `break`, no error). -/
def runFields (T : UnicodeTables) (c : defaultTag) : UrlValues → List Field → Option UrlValues
  | values, [] => some values
  | values, sf :: rest =>
    match fieldStep T c values sf with
    | .next v => runFields T c v rest
    | .done _ => none

/-- A field `Skip *int` with tag `url:"-"`, nil, whose `Encode()` would
fail with `boom`. -/
def fieldSkipped : Field :=
  .mk (str "Skip") [] false [(str "url", str "-")] (some (.error (str "boom"))) (.ptr none)

/-- A field `Sub` with tag `url:"sub"` whose `Encode()` returns `x-y`, `z`. -/
def fieldSubOk : Field :=
  .mk (str "Sub") [] false [(str "url", str "sub")] (some (.ok [str "x-y", str "z"]))
    (.ptr (some (.struct [] none)))

/-- A field `Sub` with tag `url:"sub"` whose `Encode()` fails with `boom`. -/
def fieldSubErr : Field :=
  .mk (str "Sub") [] false [(str "url", str "sub")] (some (.error (str "boom")))
    (.ptr (some (.struct [] none)))

/-- A field `Slice []string` with tag `url:"slice"`, holding `a`, `b`, `c`. -/
def fieldSlice : Field :=
  .mk (str "Slice") [] false [(str "url", str "slice")] none
    (.slice [.string (str "a"), .string (str "b"), .string (str "c")])

/-- An ASCII digit. -/
def isAsciiDigit (c : Nat) : Bool := 0x30 ≤ c && c ≤ 0x39

/-- Whether the loop of `ToSnakeCase` writes `_` before the ASCII byte `c`
that it does not take as a separator: `c` is a letter, and uppercase with
the flag down or after a digit, or `c` is a digit with the flag down. -/
def asciiUnder (prev : Nat) (isSeparator : Bool) (c : Nat) : Bool :=
  if isAsciiLetter c then (!isSeparator && isAsciiUpper c) || isAsciiDigit prev
  else if isAsciiDigit c then !isSeparator
  else false

/-- One iteration of the loop of `ToSnakeCase` after the first, on ASCII
bytes: what it writes and the flag it leaves, for the byte `c`, the byte
`prev` before it and the flag `isSeparator`. -/
def asciiNext (prev : Nat) (isSeparator : Bool) (c : Nat) : GoString × Bool :=
  if checkSpeChars c && !isSeparator then ([0x5F], true)
  else ((if asciiUnder prev isSeparator c then [0x5F] else []) ++ [asciiLower c], false)

/-- What the loop of `ToSnakeCase` writes for the ASCII bytes `rest` that
follow the byte `prev`, entered with the flag `isSeparator`. -/
def asciiTail : Nat → Bool → GoString → GoString
  | _, _, [] => []
  | prev, isSeparator, c :: rest =>
    (asciiNext prev isSeparator c).1 ++ asciiTail c (asciiNext prev isSeparator c).2 rest

/-! ## Panics: `Interface()` on a value reached through an unexported field

`reflect.Value.Interface()` panics on a value obtained through an
unexported struct field.  The test at the head of the loop of
`reflectValue` lets an unexported field through when it is embedded, so the
three places where the source calls `Interface()` (in `isEmptyValue`, in
`valueToString`, and before `Encode()`) panic for such a field.  The
definitions above give what each function returns when it returns; the
definitions below say when it panics instead. -/

/-- Whether `isEmptyValue(v)` comes to `v.Interface()`: for the kinds
outside its switch. -/
def isEmptyValueReads : Value → Bool
  | .struct _ _ => true
  | .time _ _ => true
  | .other _ => true
  | _ => false

/-- Whether `valueToString(value)` calls `value.Interface()`: for a
`time.Time`. -/
def valueToStringReads : Value → Bool
  | .time _ _ => true
  | _ => false

/-- Whether the `switch sv.Kind()` of `reflectValue` comes to an
`Interface()` call: for a slice or array with a `time.Time` element. -/
def addByKindReads : Value → Bool
  | .slice elems => elems.any valueToStringReads
  | .array elems => elems.any valueToStringReads
  | _ => false

/-- Whether the iteration of the loop of `reflectValue` for the field `sf`
calls `Interface()` on the field's value or on a value reached from it. -/
def fieldStepReads (T : UnicodeTables) (c : defaultTag) (sf : Field) : Bool :=
  if sf.PkgPath ≠ [] ∧ !sf.Anonymous then false
  else
    let sv := sf.value
    let got := c.Get T sf
    if !got.2 then false
    else
      let parsed := ParseTag got.1
      let opts := parsed.2
      if Contains opts (str "omitempty") && isEmptyValueReads sv then true
      else if Contains opts (str "omitempty") && isEmptyValue sv then false
      else
        match sv with
        | .time _ _ => true
        | _ =>
          match sf.encode with
          | some _ => true
          | none =>
            match sv with
            | .ptr none => false
            | .ptr (some elem) => addByKindReads elem
            | _ => addByKindReads sv

/-- Whether the iteration for the field `sf` panics: the field is
unexported (so its value may not be handed out) and the iteration calls
`Interface()`. -/
def fieldStepPanics (T : UnicodeTables) (c : defaultTag) (sf : Field) : Bool :=
  (sf.PkgPath != []) && fieldStepReads T c sf

/-- What a call does: it panics, or it returns a result. -/
inductive Outcome where
  | panics
  | returns (result : Except GoError UrlValues)

/-- Source `Converter.reflectValue` with its panics: the first iteration
that panics ends the call, the other iterations are those of
`reflectValue`. -/
def reflectValueOutcome (T : UnicodeTables) (c : defaultTag) :
    UrlValues → List Field → Outcome
  | values, [] => .returns (.ok values)
  | values, sf :: rest =>
    if fieldStepPanics T c sf then .panics
    else
      match fieldStep T c values sf with
      | .next v => reflectValueOutcome T c v rest
      | .done r => .returns r

/-- Source `Converter.Values` with its panics: only the loop over the
fields of a struct calls `Interface()`. -/
def Converter.ValuesOutcome (T : UnicodeTables) (c : defaultTag) : Input → Outcome
  | .value (.struct fields _) => reflectValueOutcome T c [] fields
  | .value (.ptr (some (.struct fields _))) => reflectValueOutcome T c [] fields
  | v => .returns (Converter.Values T c v)

/-- An unexported embedded field `inner` (of a struct type with
`IsZero() = true`) with tag `url:"x,omitempty"`. -/
def fieldZeroUnexported : Field :=
  .mk (str "inner") (str "main") true [(str "url", str "x,omitempty")] none
    (.struct [] (some true))

/-- An exported embedded field `Inner` (of a struct type with
`IsZero() = true`) with tag `url:"x,omitempty"`. -/
def fieldZeroExported : Field :=
  .mk (str "Inner") [] true [(str "url", str "x,omitempty")] none (.struct [] (some true))

/-- An unexported embedded field `sub` with tag `url:"sub"`, of a struct
type whose `Encode()` returns `x-y`, `z`. -/
def fieldSubUnexported : Field :=
  .mk (str "sub") (str "main") true [(str "url", str "sub")]
    (some (.ok [str "x-y", str "z"])) (.struct [] none)

/-- An unexported embedded field `inner` of struct type, with tag
`url:"x"` (no `omitempty`), holding the field `X`. -/
def fieldInnerUnexported : Field :=
  .mk (str "inner") (str "main") true [(str "url", str "x")] none (.struct [fieldX] none)

/-! ## Lemmas -/

theorem utf8Encode_ne_nil (r : Nat) : utf8Encode r ≠ [] := by
  unfold utf8Encode
  split_ifs <;> simp

theorem checkCompliance_eq (T : UnicodeTables) (c : Nat) :
    checkCompliance T c
      = (IsLetter T c || IsNumber T c || c == 0x5F || c == 0x2D || c == 0x2E) := by
  unfold checkCompliance checkSpeChars
  by_cases h1 : IsLetter T c = true <;> by_cases h2 : IsNumber T c = true <;>
    by_cases h3 : c = 0x5F <;> by_cases h4 : c = 0x2D <;> by_cases h5 : c = 0x2E <;>
    simp [h1, h2, h3, h4, h5]

theorem camelLoop_eq_nil (T : UnicodeTables) (rest : GoString) :
    ∀ (isSeparator : Bool) (builder : GoString), builder ≠ [] →
      (camelLoop T rest isSeparator builder = [] ↔ rest.all (checkCompliance T) = false) := by
  induction rest with
  | nil => intro _ b hb; simp [camelLoop, hb]
  | cons r rest ih =>
    intro sep b hb
    have henc : ∀ x, b ++ utf8Encode x ≠ [] := by
      intro x h; exact hb (List.append_eq_nil.mp h).1
    unfold camelLoop
    by_cases hc : checkCompliance T r = true
    · simp only [hc, Bool.not_true, Bool.false_eq_true, if_false, List.all_cons, Bool.true_and]
      split_ifs
      · exact ih true b hb
      · exact ih false _ (henc _)
      · exact ih sep _ (henc _)
    · simp [hc]

theorem pascalLoop_eq_nil (T : UnicodeTables) (rest : GoString) :
    ∀ (isSeparator : Bool) (builder : GoString), builder ≠ [] →
      (pascalLoop T rest isSeparator builder = [] ↔ rest.all (checkCompliance T) = false) := by
  induction rest with
  | nil => intro _ b hb; simp [pascalLoop, hb]
  | cons r rest ih =>
    intro sep b hb
    have henc : ∀ x, b ++ utf8Encode x ≠ [] := by
      intro x h; exact hb (List.append_eq_nil.mp h).1
    unfold pascalLoop
    by_cases hc : checkCompliance T r = true
    · simp only [hc, Bool.not_true, Bool.false_eq_true, if_false, List.all_cons, Bool.true_and]
      split_ifs
      · exact ih false _ (henc _)
      · exact ih true b hb
      · exact ih sep _ (henc _)
    · simp [hc]

theorem all_eq_dropLast_and_last (p : Nat → Bool) (t : GoString) (ht : t ≠ []) :
    t.all p = (t.dropLast.all p && p (t.getD (t.length - 1) 0)) := by
  induction t with
  | nil => exact absurd rfl ht
  | cons x r ih =>
    cases r with
    | nil => simp
    | cons y r =>
      have h := ih (by simp)
      simp only [List.all_cons, List.dropLast_cons₂, List.length_cons] at h ⊢
      rw [h]
      simp [Bool.and_assoc]

theorem ToCamelCase_eq_nil (T : UnicodeTables) (s : GoString) :
    ToCamelCase T s = [] ↔ validName T s = false := by
  cases s with
  | nil => simp [ToCamelCase, validName]
  | cons a t =>
    have hb : utf8Encode (ToLower T a) ≠ [] := utf8Encode_ne_nil _
    by_cases ht : t = []
    · subst ht
      by_cases h1 : IsLetter T a = true <;>
        simp [ToCamelCase, validName, byteAt, camelLoop, h1, hb]
    · have hlast : byteAt (a :: t) ((a :: t).length - 1) = t.getD (t.length - 1) 0 := by
        cases t with
        | nil => exact absurd rfl ht
        | cons y r => simp [byteAt]
      have h0 : byteAt (a :: t) 0 = a := rfl
      have hall := all_eq_dropLast_and_last (checkCompliance T) t ht
      have hloop := camelLoop_eq_nil T t false _ hb
      have hfun : (fun c => IsLetter T c || IsNumber T c || c == 0x5F || c == 0x2D || c == 0x2E)
          = checkCompliance T := by
        funext c; exact (checkCompliance_eq T c).symm
      have hcL := checkCompliance_eq T (t.getD (t.length - 1) 0)
      unfold ToCamelCase validName
      dsimp only
      rw [hfun, hlast, h0]
      rw [hall] at hloop
      clear hlast hall hfun h0 hb ht
      generalize t.getD (t.length - 1) 0 = L at hloop hcL ⊢
      generalize checkCompliance T L = cL at hloop hcL
      simp only [List.drop_one, List.tail_cons, List.length_cons, Nat.succ_ne_zero, if_false,
        List.isEmpty_cons, Bool.not_false, Bool.true_and]
      generalize t.dropLast.all (checkCompliance T) = inner at hloop ⊢
      generalize camelLoop T t false (utf8Encode (ToLower T a)) = out at hloop ⊢
      cases hA : IsLetter T a <;> cases hB : IsLetter T L <;> cases hC : IsNumber T L <;>
        cases inner <;> simp_all

theorem ToPascalCase_eq_nil (T : UnicodeTables) (s : GoString) :
    ToPascalCase T s = [] ↔ validName T s = false := by
  cases s with
  | nil => simp [ToPascalCase, validName]
  | cons a t =>
    have hb : utf8Encode (ToUpper T a) ≠ [] := utf8Encode_ne_nil _
    by_cases ht : t = []
    · subst ht
      by_cases h1 : IsLetter T a = true <;>
        simp [ToPascalCase, validName, byteAt, pascalLoop, h1, hb]
    · have hlast : byteAt (a :: t) ((a :: t).length - 1) = t.getD (t.length - 1) 0 := by
        cases t with
        | nil => exact absurd rfl ht
        | cons y r => simp [byteAt]
      have h0 : byteAt (a :: t) 0 = a := rfl
      have hall := all_eq_dropLast_and_last (checkCompliance T) t ht
      have hloop := pascalLoop_eq_nil T t false _ hb
      have hfun : (fun c => IsLetter T c || IsNumber T c || c == 0x5F || c == 0x2D || c == 0x2E)
          = checkCompliance T := by
        funext c; exact (checkCompliance_eq T c).symm
      have hcL := checkCompliance_eq T (t.getD (t.length - 1) 0)
      unfold ToPascalCase validName
      dsimp only
      rw [hfun, hlast, h0]
      rw [hall] at hloop
      clear hlast hall hfun h0 hb ht
      generalize t.getD (t.length - 1) 0 = L at hloop hcL ⊢
      generalize checkCompliance T L = cL at hloop hcL
      simp only [List.drop_one, List.tail_cons, List.length_cons, Nat.succ_ne_zero, if_false,
        List.isEmpty_cons, Bool.not_false, Bool.true_and]
      generalize t.dropLast.all (checkCompliance T) = inner at hloop ⊢
      generalize pascalLoop T t false (utf8Encode (ToUpper T a)) = out at hloop ⊢
      cases hA : IsLetter T a <;> cases hB : IsLetter T L <;> cases hC : IsNumber T L <;>
        cases inner <;> simp_all

theorem reflectValue_cons (T : UnicodeTables) (c : defaultTag) (values : UrlValues)
    (sf : Field) (rest : List Field) :
    reflectValue T c values (sf :: rest)
      = match fieldStep T c values sf with
        | .next v => reflectValue T c v rest
        | .done r => r := by
  conv_lhs => unfold reflectValue
  unfold fieldStep
  dsimp only
  generalize sf.value = sv
  generalize sf.encode = se
  split_ifs <;> try rfl
  rcases se with _ | (e | l) <;>
    (cases sv with
     | ptr elem => cases elem <;> rfl
     | _ => rfl)

/-- A field whose iteration leaves the values as they are can be removed
from the struct. -/
theorem reflectValue_remove (T : UnicodeTables) (c : defaultTag) (f : Field)
    (hf : ∀ v, fieldStep T c v f = .next v) (post : List Field) (pre : List Field) :
    ∀ values, reflectValue T c values (pre ++ f :: post)
      = reflectValue T c values (pre ++ post) := by
  induction pre with
  | nil =>
    intro values
    rw [List.nil_append, List.nil_append, reflectValue_cons, hf]
  | cons p pre ih =>
    intro values
    rw [List.cons_append, List.cons_append, reflectValue_cons, reflectValue_cons]
    cases fieldStep T c values p with
    | next v => exact ih v
    | done r => rfl

theorem fieldStep_struct (T : UnicodeTables) (c : defaultTag) (f : Field)
    (inner : List Field) (iz : Option Bool) (hs : f.value = .struct inner iz)
    (he : f.encode = none) (v : UrlValues) : fieldStep T c v f = .next v := by
  unfold fieldStep
  rw [hs, he]
  dsimp only
  split_ifs <;> rfl

theorem checkSpeChars_eq_false (r : Nat) :
    checkSpeChars r = false ↔ r ≠ 0x5F ∧ r ≠ 0x2D ∧ r ≠ 0x2E := by
  unfold checkSpeChars
  by_cases h : r = 0x5F ∨ r = 0x2D ∨ r = 0x2E
  · simp only [h, if_true]
    constructor
    · intro h'; exact absurd h' (by decide)
    · intro h'; omega
  · simp only [h, if_false]
    constructor
    · intro _; omega
    · intro _; trivial

theorem checkSpeChars_of_letter (T : UnicodeTables) (r : Nat) (h : IsLetter T r = true) :
    checkSpeChars r = false := by
  rw [checkSpeChars_eq_false]
  refine ⟨?_, ?_, ?_⟩ <;> intro hr <;> subst hr <;> simp [IsLetter, latin1Letter] at h

theorem checkSpeChars_of_number (T : UnicodeTables) (r : Nat) (h : IsNumber T r = true) :
    checkSpeChars r = false := by
  rw [checkSpeChars_eq_false]
  refine ⟨?_, ?_, ?_⟩ <;> intro hr <;> subst hr <;> simp [IsNumber, latin1Number] at h

theorem validName_cons (T : UnicodeTables) (a : Nat) (t : GoString)
    (hv : validName T (a :: t) = true) :
    IsLetter T a = true
      ∧ (IsLetter T (byteAt (a :: t) t.length) = true
          ∨ IsNumber T (byteAt (a :: t) t.length) = true)
      ∧ t.all (checkCompliance T) = true := by
  have hfun : (fun c => IsLetter T c || IsNumber T c || c == 0x5F || c == 0x2D || c == 0x2E)
      = checkCompliance T := by
    funext c; exact (checkCompliance_eq T c).symm
  unfold validName at hv
  rw [hfun] at hv
  simp only [List.isEmpty_cons, Bool.not_false, Bool.true_and, List.length_cons,
    Nat.add_sub_cancel, List.drop_one, List.tail_cons, Bool.and_eq_true, Bool.or_eq_true] at hv
  obtain ⟨⟨h1, h2⟩, h3⟩ := hv
  have h0 : byteAt (a :: t) 0 = a := rfl
  rw [h0] at h1
  refine ⟨h1, h2, ?_⟩
  by_cases ht : t = []
  · subst ht; rfl
  · have hlast : byteAt (a :: t) t.length = t.getD (t.length - 1) 0 := by
      cases t with
      | nil => exact absurd rfl ht
      | cons y r => simp [byteAt]
    rw [all_eq_dropLast_and_last (checkCompliance T) t ht, h3, Bool.true_and, ← hlast,
      checkCompliance_eq]
    rcases h2 with h2 | h2 <;> simp [h2]

theorem camelLoop_eq (T : UnicodeTables) (rest : GoString) :
    ∀ (prev : Nat) (builder : GoString), rest.all (checkCompliance T) = true →
      camelLoop T rest (checkSpeChars prev) builder = builder ++ camelTail T prev rest := by
  induction rest with
  | nil => intro _ b _; simp [camelLoop, camelTail]
  | cons r rest ih =>
    intro prev b hall
    simp only [List.all_cons, Bool.and_eq_true] at hall
    obtain ⟨hr, hrest⟩ := hall
    unfold camelLoop camelTail
    simp only [hr, Bool.not_true, Bool.false_eq_true, if_false]
    by_cases hs : checkSpeChars r = true
    · have := ih r b hrest
      rw [hs] at this
      simp [hs, this]
    · have hs' : checkSpeChars r = false := by simpa using hs
      by_cases hp : checkSpeChars prev = true
      · have := ih r (b ++ utf8Encode (ToUpper T r)) hrest
        rw [hs'] at this
        simp [hs', hp, this]
      · have hp' : checkSpeChars prev = false := by simpa using hp
        have := ih r (b ++ utf8Encode r) hrest
        rw [hs'] at this
        simp [hs', hp', this]

theorem ToCamelCase_of_valid (T : UnicodeTables) (s : GoString)
    (hv : validName T s = true) : ToCamelCase T s = camelSpec T s := by
  cases s with
  | nil => simp [validName] at hv
  | cons a t =>
    obtain ⟨h1, h2, h3⟩ := validName_cons T a t hv
    have hsep := checkSpeChars_of_letter T a h1
    have hloop := camelLoop_eq T t a (utf8Encode (ToLower T a)) h3
    rw [hsep] at hloop
    have h0 : byteAt (a :: t) 0 = a := rfl
    unfold ToCamelCase camelSpec
    dsimp only
    rw [h0]
    simp only [List.length_cons, Nat.succ_ne_zero, if_false, Nat.add_sub_cancel,
      List.drop_one, List.tail_cons]
    rw [hloop]
    rcases h2 with h2 | h2 <;> simp [h1, h2]

theorem utf8Encode_no_separator (r : Nat) (hr : checkSpeChars r = false) :
    ∀ b ∈ utf8Encode r, checkSpeChars b = false := by
  intro b hb
  rw [checkSpeChars_eq_false] at hr ⊢
  unfold utf8Encode at hb
  split_ifs at hb <;> simp only [List.mem_cons, List.mem_singleton, List.not_mem_nil,
    or_false] at hb <;> omega

theorem ToUpper_no_separator (T : UnicodeTables) (r : Nat) (hlt : r < 256)
    (hr : checkSpeChars r = false) : checkSpeChars (ToUpper T r) = false := by
  rw [checkSpeChars_eq_false] at hr ⊢
  unfold ToUpper
  split_ifs <;> omega

theorem ToLower_no_separator (T : UnicodeTables) (r : Nat) (hlt : r < 256)
    (hr : checkSpeChars r = false) : checkSpeChars (ToLower T r) = false := by
  rw [checkSpeChars_eq_false] at hr ⊢
  unfold ToLower
  split_ifs <;> omega

theorem camelTail_no_separator (T : UnicodeTables) (rest : GoString) :
    ∀ (prev : Nat), (∀ c ∈ rest, c < 256) →
      ∀ b ∈ camelTail T prev rest, checkSpeChars b = false := by
  induction rest with
  | nil => intro _ _ b hb; simp [camelTail] at hb
  | cons c rest ih =>
    intro prev hlt b hb
    have hc : c < 256 := hlt c (List.mem_cons_self _ _)
    have hrest : ∀ x ∈ rest, x < 256 := fun x hx => hlt x (List.mem_cons_of_mem _ hx)
    unfold camelTail at hb
    rcases List.mem_append.mp hb with hb | hb
    · by_cases hs : checkSpeChars c = true
      · simp [hs] at hb
      · have hs' : checkSpeChars c = false := by simpa using hs
        rw [hs'] at hb
        simp only [Bool.false_eq_true, if_false] at hb
        split_ifs at hb
        · exact utf8Encode_no_separator _ (ToUpper_no_separator T c hc hs') b hb
        · exact utf8Encode_no_separator _ hs' b hb
    · exact ih c hrest b hb

theorem snakeStep_append (T : UnicodeTables) (input : GoString) (b : GoString)
    (sep : Bool) (x : Nat × Nat) :
    snakeStep T input (b, sep) x
      = (b ++ (snakeStep T input ([], sep) x).1, (snakeStep T input ([], sep) x).2) := by
  unfold snakeStep
  dsimp only
  split_ifs <;> simp

theorem foldl_snakeStep_append (T : UnicodeTables) (input : GoString)
    (rs : List (Nat × Nat)) :
    ∀ (b : GoString) (sep : Bool),
      rs.foldl (snakeStep T input) (b, sep)
        = (b ++ (rs.foldl (snakeStep T input) ([], sep)).1,
           (rs.foldl (snakeStep T input) ([], sep)).2) := by
  induction rs with
  | nil => intro b sep; simp
  | cons x rs ih =>
    intro b sep
    rw [List.foldl_cons, List.foldl_cons, snakeStep_append, ih,
      ih (snakeStep T input ([], sep) x).1]
    simp

theorem ToSnakeCase_of_accepts (T : UnicodeTables) (input : GoString)
    (h : snakeAccepts T input = true) :
    ToSnakeCase T input = snakeWritten T input false (rangeString input) := by
  unfold snakeAccepts at h
  simp only [Bool.and_eq_true, Bool.or_eq_true, Bool.not_eq_true', List.isEmpty_eq_false] at h
  obtain ⟨⟨h0, h1⟩, h2⟩ := h
  have hlen : input.length ≠ 0 := by
    intro hl; exact h0 (List.length_eq_zero.mp hl)
  unfold ToSnakeCase snakeWritten
  dsimp only
  rw [if_neg hlen]
  rcases h2 with h2 | h2 <;> simp [h1, h2]

theorem decodeRune_width_pos (b : Nat) (rest : GoString) :
    1 ≤ (decodeRune (b :: rest)).2 := by
  unfold decodeRune
  dsimp only
  split_ifs <;> first | simp | (split <;> first | simp | (split_ifs <;> simp))

theorem rangeFrom_offset_ge (fuel : Nat) :
    ∀ (k : Nat) (s : GoString), ∀ x ∈ rangeFrom fuel k s, k ≤ x.1 := by
  induction fuel with
  | zero => intro k s x hx; simp [rangeFrom] at hx
  | succ fuel ih =>
    intro k s x hx
    cases s with
    | nil => simp [rangeFrom] at hx
    | cons b rest =>
      unfold rangeFrom at hx
      rcases List.mem_cons.mp hx with hx | hx
      · rw [hx]
      · have := ih _ _ x hx
        omega

theorem rangeFrom_tail_offset (fuel k : Nat) (s : GoString) :
    ∀ x ∈ (rangeFrom fuel k s).tail, k < x.1 := by
  intro x hx
  cases fuel with
  | zero => simp [rangeFrom] at hx
  | succ fuel =>
    cases s with
    | nil => simp [rangeFrom] at hx
    | cons b rest =>
      unfold rangeFrom at hx
      simp only [List.tail_cons] at hx
      have h1 := rangeFrom_offset_ge fuel _ _ x hx
      have h2 := decodeRune_width_pos b rest
      omega

theorem snakeStep_flag_of_non_separator (T : UnicodeTables) (input : GoString)
    (st : GoString × Bool) (j p : Nat) (hp : checkSpeChars p = false)
    (hj : j = 0 → st.2 = false) : (snakeStep T input st (j, p)).2 = false := by
  unfold snakeStep
  dsimp only
  by_cases h0 : j = 0
  · simp [h0, hj h0]
  · simp [h0, hp]

theorem snakeStep_number (T : UnicodeTables) (input : GoString) (b : GoString)
    (i d : Nat) (hi : i ≠ 0) (hd : IsNumber T d = true) (hl : IsLetter T d = false) :
    snakeStep T input (b, false) (i, d) = (b ++ 0x5F :: utf8Encode (ToLower T d), false) := by
  have hs := checkSpeChars_of_number T d hd
  unfold snakeStep
  simp [hi, hs, hd, hl]

theorem decodeRune_ascii (b : Nat) (rest : GoString) (hb : b < 0x80) :
    decodeRune (b :: rest) = (b, 1) := by
  unfold decodeRune
  simp [hb]

theorem rangeFrom_ascii (s : GoString) :
    ∀ (fuel k : Nat), (∀ b ∈ s, b < 0x80) → s.length ≤ fuel →
      rangeFrom fuel k s = s.enumFrom k := by
  induction s with
  | nil => intro fuel k _ _; cases fuel <;> simp [rangeFrom]
  | cons b rest ih =>
    intro fuel k hall hlen
    cases fuel with
    | zero => simp at hlen
    | succ fuel =>
      have hb : b < 0x80 := hall b (List.mem_cons_self _ _)
      have hrest : ∀ x ∈ rest, x < 0x80 := fun x hx => hall x (List.mem_cons_of_mem _ hx)
      have hl : rest.length ≤ fuel := by simpa using hlen
      unfold rangeFrom
      rw [decodeRune_ascii b rest hb]
      simp only [Nat.sub_self, List.drop_zero, List.enumFrom_cons]
      rw [ih fuel (k + 1) hrest hl]

theorem isAsciiLetter_iff (c : Nat) :
    isAsciiLetter c = true ↔ (0x41 ≤ c ∧ c ≤ 0x5A) ∨ (0x61 ≤ c ∧ c ≤ 0x7A) := by
  simp [isAsciiLetter]

theorem utf8Encode_ascii (r : Nat) (h : r ≤ 0x7F) : utf8Encode r = [r] := by
  unfold utf8Encode
  simp [h]

theorem isAsciiUpper_iff (c : Nat) : isAsciiUpper c = true ↔ 0x41 ≤ c ∧ c ≤ 0x5A := by
  simp [isAsciiUpper]

theorem asciiLetter_facts (T : UnicodeTables) (c : Nat) (hc : isAsciiLetter c = true) :
    IsLetter T c = true ∧ IsNumber T c = false ∧ IsUpper T c = isAsciiUpper c
      ∧ utf8Encode (ToLower T c) = [asciiLower c] ∧ checkSpeChars c = false := by
  rw [isAsciiLetter_iff] at hc
  refine ⟨?_, ?_, ?_, ?_, ?_⟩
  · simp only [IsLetter, latin1Letter]
    rw [if_pos (by omega)]
    simp only [Bool.or_eq_true, Bool.and_eq_true, decide_eq_true_eq, beq_iff_eq]
    omega
  · simp only [IsNumber, latin1Number]
    rw [if_pos (by omega)]
    simp only [Bool.or_eq_false_iff, Bool.and_eq_false_iff, decide_eq_false_iff_not,
      beq_eq_false_iff_ne]
    omega
  · simp only [IsUpper, latin1Upper, isAsciiUpper]
    rw [if_pos (by omega)]
    have h1 : decide (0xC0 ≤ c) = false := by simp; omega
    have h2 : decide (0xD8 ≤ c) = false := by simp; omega
    simp [h1, h2]
  · by_cases hup : isAsciiUpper c = true
    · have hr := (isAsciiUpper_iff c).mp hup
      have h3 : ToLower T c = c + 32 := by
        simp only [ToLower]
        rw [if_pos (by omega), if_pos hr]
      have h4 : asciiLower c = c + 32 := by simp [asciiLower, hup]
      rw [h3, h4]
      exact utf8Encode_ascii _ (by omega)
    · have hr : ¬ (0x41 ≤ c ∧ c ≤ 0x5A) := fun h => hup ((isAsciiUpper_iff c).mpr h)
      have h3 : ToLower T c = c := by
        simp only [ToLower]
        rw [if_pos (by omega), if_neg hr]
      have h4 : asciiLower c = c := by simp [asciiLower, hup]
      rw [h3, h4]
      exact utf8Encode_ascii _ (by omega)
  · rw [checkSpeChars_eq_false]; omega

theorem snakeStep_letter (T : UnicodeTables) (input : GoString) (b : GoString)
    (i c : Nat) (hi : i ≠ 0) (hc : isAsciiLetter c = true)
    (hprev : isAsciiLetter (byteAt input (i - 1)) = true) :
    snakeStep T input (b, false) (i, c)
      = (b ++ (if isAsciiUpper c then [0x5F, asciiLower c] else [c]), false) := by
  obtain ⟨hl, _, hu, hlow, hs⟩ := asciiLetter_facts T c hc
  obtain ⟨_, hn, _, _, _⟩ := asciiLetter_facts T _ hprev
  unfold snakeStep
  simp only [hi, if_false, hs, Bool.false_and, Bool.false_eq_true, hl, if_true, Bool.not_false,
    Bool.true_and, hn, Bool.or_false, hu, hlow]
  by_cases hup : isAsciiUpper c = true
  · simp [hup]
  · have hup' : isAsciiUpper c = false := by simpa using hup
    have : asciiLower c = c := by simp [asciiLower, hup']
    simp [hup', this]

theorem foldl_snakeStep_letters (T : UnicodeTables) (input : GoString)
    (hin : ∀ i, i < input.length → isAsciiLetter (byteAt input i) = true)
    (suf : GoString) :
    ∀ (pre : GoString) (b : GoString), pre ≠ [] → input = pre ++ suf →
      (suf.enumFrom pre.length).foldl (snakeStep T input) (b, false)
        = (b ++ suf.flatMap (fun c => if isAsciiUpper c then [0x5F, asciiLower c] else [c]),
           false) := by
  induction suf with
  | nil => intro pre b _ _; simp
  | cons c r ih =>
    intro pre b hpre hsplit
    have hlen : 0 < pre.length := List.length_pos.mpr hpre
    have hc : isAsciiLetter c = true := by
      have h := hin pre.length (by rw [hsplit]; simp)
      have hget : byteAt input pre.length = c := by
        rw [hsplit]
        unfold byteAt
        rw [List.getD_append_right _ _ _ _ (le_refl _)]
        simp
      rw [hget] at h
      exact h
    have hprev : isAsciiLetter (byteAt input (pre.length - 1)) = true :=
      hin (pre.length - 1) (by rw [hsplit]; simp; omega)
    rw [List.enumFrom_cons, List.foldl_cons,
      snakeStep_letter T input b pre.length c (by omega) hc hprev]
    have := ih (pre ++ [c]) (b ++ (if isAsciiUpper c then [0x5F, asciiLower c] else [c]))
      (by simp) (by rw [hsplit]; simp)
    rw [List.length_append, List.length_singleton] at this
    rw [this]
    simp

theorem Add_of_not_mem (vs : UrlValues) (k x : GoString) (h : k ∉ vs.map Prod.fst) :
    Add vs k x = vs ++ [(k, [x])] := by
  induction vs with
  | nil => rfl
  | cons p rest ih =>
    obtain ⟨k', xs⟩ := p
    simp only [List.map_cons, List.mem_cons, not_or] at h
    unfold Add
    rw [if_neg (fun e => h.1 e.symm), ih h.2]
    rfl

theorem addMapEntries_stringMap (m : List (GoString × GoString)) :
    ∀ (acc : UrlValues), (acc.map Prod.fst ++ m.map Prod.fst).Nodup →
      addMapEntries acc (m.map (fun kv => (kv.1, Value.string kv.2)))
        = .ok (acc ++ m.map (fun kv => (kv.1, [kv.2]))) := by
  induction m with
  | nil => intro acc _; simp [addMapEntries]
  | cons kv m ih =>
    intro acc hnd
    obtain ⟨k, v⟩ := kv
    have hk : k ∉ acc.map Prod.fst := by
      intro hmem
      have := (List.nodup_append.mp hnd).2.2
      exact this hmem (by simp)
    have hnd' : ((acc ++ [(k, [v])]).map Prod.fst ++ m.map Prod.fst).Nodup := by
      simpa using hnd
    simp only [List.map_cons, addMapEntries]
    rw [Add_of_not_mem acc k v hk, ih _ hnd']
    simp

theorem Get_of_mem (m : List (GoString × GoString)) (hnd : (m.map Prod.fst).Nodup) :
    ∀ kv ∈ m, Get (m.map (fun kv => (kv.1, [kv.2]))) kv.1 = kv.2 := by
  induction m with
  | nil => intro kv h; simp at h
  | cons p m ih =>
    intro kv hmem
    obtain ⟨k, v⟩ := p
    simp only [List.map_cons, List.nodup_cons] at hnd
    rcases List.mem_cons.mp hmem with h | h
    · subst h
      simp [Get, List.lookup]
    · have hne : kv.1 ≠ k := by
        intro e
        exact hnd.1 (e ▸ List.mem_map_of_mem Prod.fst h)
      have hbeq : (kv.1 == k) = false := by simpa using hne
      have := ih hnd.2 kv h
      unfold Get at this ⊢
      simp only [List.map_cons, List.lookup, hbeq]
      exact this

theorem addMapEntries_error (entries : List (GoString × Value)) :
    ∀ (acc : UrlValues), (∃ e ∈ entries, isStringKind e.2 = false) →
      addMapEntries acc entries = .error (str "map value must be a string") := by
  induction entries with
  | nil => intro acc h; simp at h
  | cons e rest ih =>
    intro acc h
    obtain ⟨k, v⟩ := e
    cases v with
    | string s =>
      have h' : ∃ e ∈ rest, isStringKind e.2 = false := by
        obtain ⟨e, he, hs⟩ := h
        rcases List.mem_cons.mp he with he | he
        · subst he; simp [isStringKind] at hs
        · exact ⟨e, he, hs⟩
      simp only [addMapEntries]
      exact ih _ h'
    | _ => rfl

theorem splitOn_of_not_mem (sep : Nat) (s : GoString) (h : sep ∉ s) : splitOn sep s = [s] := by
  induction s with
  | nil => rfl
  | cons c cs ih =>
    simp only [List.mem_cons, not_or] at h
    unfold splitOn
    rw [if_neg (fun e => h.1 e.symm), ih h.2]

theorem ParseTag_of_no_comma (s : GoString) (h : 0x2C ∉ s) : ParseTag s = (s, []) := by
  unfold ParseTag
  rw [splitOn_of_not_mem 0x2C s h]

theorem decodeRune_eq_comma (b : Nat) (rest : GoString)
    (h : (decodeRune (b :: rest)).1 = 0x2C) : b = 0x2C := by
  unfold decodeRune at h
  dsimp only at h
  split_ifs at h <;>
    first
    | exact h
    | (simp only at h; omega)
    | (split at h <;> first
        | (simp only at h; omega)
        | (split_ifs at h <;> simp only at h <;> omega))

theorem rangeFrom_comma (fuel : Nat) :
    ∀ (k : Nat) (s : GoString), ∀ x ∈ rangeFrom fuel k s, x.2 = 0x2C → 0x2C ∈ s := by
  induction fuel with
  | zero => intro k s x hx; simp [rangeFrom] at hx
  | succ fuel ih =>
    intro k s x hx hc
    cases s with
    | nil => simp [rangeFrom] at hx
    | cons b rest =>
      unfold rangeFrom at hx
      rcases List.mem_cons.mp hx with hx | hx
      · subst hx
        rw [decodeRune_eq_comma b rest hc]
        exact List.mem_cons_self _ _
      · exact List.mem_cons_of_mem _ (List.mem_of_mem_drop (ih _ _ x hx hc))

theorem utf8Encode_comma (r : Nat) (h : 0x2C ∈ utf8Encode r) : r = 0x2C := by
  unfold utf8Encode at h
  split_ifs at h <;> simp only [List.mem_cons, List.mem_singleton, List.not_mem_nil,
    or_false] at h <;> omega

theorem ToLower_ne_comma (T : UnicodeTables) (hT : ∀ r, 0xFF < r → T.toLower r ≠ 0x2C)
    (r : Nat) (hr : r ≠ 0x2C) : ToLower T r ≠ 0x2C := by
  unfold ToLower
  split_ifs with h1 h2 h3 h4
  · omega
  · exact hr
  · omega
  · exact hr
  · exact hT r (by omega)

theorem snakeStep_no_comma (T : UnicodeTables) (hT : ∀ r, 0xFF < r → T.toLower r ≠ 0x2C)
    (input : GoString) (st : GoString × Bool) (x : Nat × Nat) (hst : 0x2C ∉ st.1)
    (hx : x.2 ≠ 0x2C) : 0x2C ∉ (snakeStep T input st x).1 := by
  have henc : 0x2C ∉ utf8Encode (ToLower T x.2) :=
    fun h => ToLower_ne_comma T hT x.2 hx (utf8Encode_comma _ h)
  unfold snakeStep
  dsimp only
  split_ifs <;> simp [hst, henc]

theorem foldl_snakeStep_no_comma (T : UnicodeTables)
    (hT : ∀ r, 0xFF < r → T.toLower r ≠ 0x2C) (input : GoString) (rs : List (Nat × Nat)) :
    ∀ (st : GoString × Bool), 0x2C ∉ st.1 → (∀ x ∈ rs, x.2 ≠ 0x2C) →
      0x2C ∉ (rs.foldl (snakeStep T input) st).1 := by
  induction rs with
  | nil => intro st hst _; exact hst
  | cons x rs ih =>
    intro st hst hall
    rw [List.foldl_cons]
    exact ih _ (snakeStep_no_comma T hT input st x hst (hall x (List.mem_cons_self _ _)))
      (fun y hy => hall y (List.mem_cons_of_mem _ hy))

theorem ToSnakeCase_no_comma (T : UnicodeTables) (hT : ∀ r, 0xFF < r → T.toLower r ≠ 0x2C)
    (input : GoString) (h : 0x2C ∉ input) : 0x2C ∉ ToSnakeCase T input := by
  unfold ToSnakeCase
  dsimp only
  split_ifs
  · simp
  · simp
  · apply foldl_snakeStep_no_comma T hT input _ _ (by simp)
    intro x hx hc
    exact h (rangeFrom_comma _ _ _ x hx hc)

theorem Get_of_nonempty_tag (T : UnicodeTables) (c : defaultTag) (f : Field)
    (hne : tagGet f.Tag c.tagType ≠ []) :
    c.Get T f = ([], false) ∨ c.Get T f = (tagGet f.Tag c.tagType, true) := by
  unfold defaultTag.Get
  dsimp only
  split_ifs with h1 h2
  · exact Or.inl rfl
  · exact absurd h2.1 hne
  · exact Or.inr rfl

theorem fieldStep_omitempty (T : UnicodeTables) (c : defaultTag) (f : Field)
    (hopt : Contains (ParseTag (tagGet f.Tag c.tagType)).2 (str "omitempty") = true)
    (hempty : isEmptyValue f.value = true) (v : UrlValues) :
    fieldStep T c v f = .next v := by
  have hne : tagGet f.Tag c.tagType ≠ [] := by
    intro h
    rw [h] at hopt
    simp [ParseTag, splitOn, Contains] at hopt
  unfold fieldStep
  dsimp only
  rcases Get_of_nonempty_tag T c f hne with hg | hg
  · rw [hg]
    split_ifs <;> first | rfl | simp_all
  · rw [hg]
    dsimp only
    rw [hopt, hempty]
    split_ifs <;> first | rfl | simp_all

theorem fieldStep_skip (T : UnicodeTables) (c : defaultTag) (f : Field)
    (hskip : tagGet f.Tag c.tagType = c.skip) (v : UrlValues) :
    fieldStep T c v f = .next v := by
  have hg : c.Get T f = ([], false) := by
    unfold defaultTag.Get
    dsimp only
    rw [if_pos hskip]
  unfold fieldStep
  dsimp only
  rw [hg]
  split_ifs <;> first | rfl | simp_all

theorem runFields_append (T : UnicodeTables) (c : defaultTag) (rest : List Field)
    (pre : List Field) :
    ∀ (v0 v : UrlValues), runFields T c v0 pre = some v →
      reflectValue T c v0 (pre ++ rest) = reflectValue T c v rest := by
  induction pre with
  | nil =>
    intro v0 v h
    simp only [runFields, Option.some.injEq] at h
    subst h
    rfl
  | cons p pre ih =>
    intro v0 v h
    rw [List.cons_append, reflectValue_cons]
    unfold runFields at h
    cases hs : fieldStep T c v0 p with
    | next v1 =>
      rw [hs] at h
      exact ih v1 v h
    | done res =>
      rw [hs] at h
      simp at h

theorem fieldStep_encoder (T : UnicodeTables) (c : defaultTag) (f : Field) (v : UrlValues)
    (hexp : ¬ (f.PkgPath ≠ [] ∧ f.Anonymous = false))
    (hinc : (c.Get T f).2 = true)
    (hkeep : (Contains (ParseTag (c.Get T f).1).2 (str "omitempty")
        && isEmptyValue f.value) = false)
    (htime : ∀ z s, f.value ≠ .time z s) :
    (∀ e, f.encode = some (.error e) → fieldStep T c v f = .done (.error e))
      ∧ (∀ ss, f.encode = some (.ok ss) →
          fieldStep T c v f
            = .next (ss.foldl (fun vs s => Add vs (resolvedName T c f) s) v)) := by
  have h1 : ¬ (f.PkgPath ≠ [] ∧ (!f.Anonymous) = true) := by
    intro h
    exact hexp ⟨h.1, by simpa using h.2⟩
  constructor
  · intro e henc
    unfold fieldStep
    dsimp only
    rw [if_neg h1, hinc, hkeep, henc]
    simp only [Bool.not_true, Bool.false_eq_true, if_false]
  · intro ss henc
    unfold fieldStep resolvedName
    dsimp only
    rw [if_neg h1, hinc, hkeep, henc]
    simp only [Bool.not_true, Bool.false_eq_true, if_false]

theorem valuesOf_Add (vs : UrlValues) (k x k' : GoString) :
    valuesOf (Add vs k x) k' = if k' = k then valuesOf vs k ++ [x] else valuesOf vs k' := by
  induction vs with
  | nil =>
    by_cases h : k' = k
    · subst h; simp [Add, valuesOf, List.lookup]
    · have hb : (k' == k) = false := by simpa using h
      simp [Add, valuesOf, List.lookup, h, hb]
  | cons p rest ih =>
    obtain ⟨k0, xs⟩ := p
    unfold valuesOf at ih ⊢
    unfold Add
    by_cases h0 : k0 = k
    · subst h0
      rw [if_pos rfl]
      by_cases h : k' = k0
      · subst h; simp [List.lookup]
      · have hb : (k' == k0) = false := by simpa using h
        simp [List.lookup, h, hb]
    · rw [if_neg h0]
      by_cases h : k' = k0
      · subst h
        have hne : ¬ k' = k := h0
        simp [List.lookup, hne]
      · have hb : (k' == k0) = false := by simpa using h
        have hb0 : (k == k0) = false := by
          simpa using (fun e : k = k0 => h0 e.symm)
        simp only [List.lookup, hb, hb0]
        exact ih

theorem valuesOf_foldl_Add (name k' : GoString) (ss : List GoString) :
    ∀ (vs : UrlValues), valuesOf (ss.foldl (fun vs s => Add vs name s) vs) k'
      = if k' = name then valuesOf vs name ++ ss else valuesOf vs k' := by
  induction ss with
  | nil => intro vs; by_cases h : k' = name <;> simp [h]
  | cons s ss ih =>
    intro vs
    rw [List.foldl_cons, ih, valuesOf_Add, valuesOf_Add]
    by_cases h : k' = name <;> simp [h]

/-- The values `isEmptyValue` takes as empty: the empty string, slice, map
and array, the zero integers and float, `false`, the nil pointer and
interface, and a struct (or `time.Time`, or a value of another kind
outside the switch) whose `IsZero()` reports true. -/
theorem isEmptyValue_listed (k : Bool) (fs : List Field) (s : GoString) :
    isEmptyValue (.string []) = true ∧ isEmptyValue (.slice []) = true
      ∧ isEmptyValue (.map k []) = true ∧ isEmptyValue (.array []) = true
      ∧ isEmptyValue (.int 0) = true ∧ isEmptyValue (.uint 0) = true
      ∧ isEmptyValue (.uintptr 0) = true ∧ isEmptyValue (.float true s) = true
      ∧ isEmptyValue (.bool false) = true ∧ isEmptyValue (.ptr none) = true
      ∧ isEmptyValue (.iface true) = true ∧ isEmptyValue (.struct fs (some true)) = true
      ∧ isEmptyValue (.time true s) = true ∧ isEmptyValue (.other (some true)) = true :=
  ⟨rfl, rfl, rfl, rfl, rfl, rfl, rfl, rfl, rfl, rfl, rfl, rfl, rfl, rfl⟩

theorem fieldStep_slice (T : UnicodeTables) (c : defaultTag) (f : Field) (v : UrlValues)
    (elems : List Value)
    (hexp : ¬ (f.PkgPath ≠ [] ∧ f.Anonymous = false))
    (hinc : (c.Get T f).2 = true)
    (hkind : f.value = .slice elems ∨ f.value = .array elems)
    (henc : f.encode = none) :
    fieldStep T c v f
      = .next ((elems.map valueToString).foldl
          (fun vs s => Add vs (resolvedName T c f) s) v) := by
  have h1 : ¬ (f.PkgPath ≠ [] ∧ (!f.Anonymous) = true) := by
    intro h
    exact hexp ⟨h.1, by simpa using h.2⟩
  unfold fieldStep resolvedName
  dsimp only
  rw [if_neg h1, hinc, henc, List.foldl_map]
  simp only [Bool.not_true, Bool.false_eq_true, if_false]
  rcases hkind with hk | hk <;> rw [hk] <;> cases elems with
    | nil => simp [isEmptyValue, addByKind]
    | cons e es => simp [isEmptyValue, addByKind]

theorem isAsciiDigit_iff (c : Nat) : isAsciiDigit c = true ↔ 0x30 ≤ c ∧ c ≤ 0x39 := by
  simp [isAsciiDigit]

theorem ascii_facts (T : UnicodeTables) (x : Nat) (hx : x < 0x80) :
    IsLetter T x = isAsciiLetter x ∧ IsNumber T x = isAsciiDigit x
      ∧ IsUpper T x = isAsciiUpper x ∧ utf8Encode (ToLower T x) = [asciiLower x] := by
  refine ⟨?_, ?_, ?_, ?_⟩
  · simp only [IsLetter]
    rw [if_pos (by omega), Bool.eq_iff_iff, isAsciiLetter_iff]
    simp only [latin1Letter, Bool.or_eq_true, Bool.and_eq_true, decide_eq_true_eq, beq_iff_eq]
    omega
  · simp only [IsNumber]
    rw [if_pos (by omega), Bool.eq_iff_iff, isAsciiDigit_iff]
    simp only [latin1Number, Bool.or_eq_true, Bool.and_eq_true, decide_eq_true_eq, beq_iff_eq]
    omega
  · simp only [IsUpper]
    rw [if_pos (by omega), Bool.eq_iff_iff, isAsciiUpper_iff]
    simp only [latin1Upper, Bool.or_eq_true, Bool.and_eq_true, decide_eq_true_eq]
    omega
  · by_cases hup : isAsciiUpper x = true
    · have hr := (isAsciiUpper_iff x).mp hup
      have h3 : ToLower T x = x + 32 := by
        simp only [ToLower]
        rw [if_pos (by omega), if_pos hr]
      have h4 : asciiLower x = x + 32 := by simp [asciiLower, hup]
      rw [h3, h4]
      exact utf8Encode_ascii _ (by omega)
    · have hr : ¬ (0x41 ≤ x ∧ x ≤ 0x5A) := fun h => hup ((isAsciiUpper_iff x).mpr h)
      have h3 : ToLower T x = x := by
        simp only [ToLower]
        rw [if_pos (by omega), if_neg hr]
      have h4 : asciiLower x = x := by simp [asciiLower, hup]
      rw [h3, h4]
      exact utf8Encode_ascii _ (by omega)

theorem snakeStep_ascii (T : UnicodeTables) (input : GoString) (b : GoString) (sep : Bool)
    (i c : Nat) (hi : i ≠ 0) (hc : c < 0x80) (hp : byteAt input (i - 1) < 0x80) :
    snakeStep T input (b, sep) (i, c)
      = (b ++ (asciiNext (byteAt input (i - 1)) sep c).1,
         (asciiNext (byteAt input (i - 1)) sep c).2) := by
  obtain ⟨hl, hn, hu, hlow⟩ := ascii_facts T c hc
  obtain ⟨_, hnp, _, _⟩ := ascii_facts T _ hp
  unfold snakeStep asciiNext asciiUnder
  simp only [hi, if_false, hl, hn, hu, hlow, hnp]
  split_ifs <;> simp

theorem foldl_snakeStep_ascii (T : UnicodeTables) (input : GoString)
    (hin : ∀ i, byteAt input i < 0x80) (suf : GoString) :
    ∀ (pre : GoString) (b : GoString) (sep : Bool), pre ≠ [] → input = pre ++ suf →
      ((suf.enumFrom pre.length).foldl (snakeStep T input) (b, sep)).1
        = b ++ asciiTail (byteAt input (pre.length - 1)) sep suf := by
  induction suf with
  | nil => intro pre b sep _ _; simp [asciiTail]
  | cons c r ih =>
    intro pre b sep hpre hsplit
    have hlen : 0 < pre.length := List.length_pos.mpr hpre
    have hget : byteAt input pre.length = c := by
      rw [hsplit]
      unfold byteAt
      rw [List.getD_append_right _ _ _ _ (le_refl _)]
      simp
    have hc : c < 0x80 := hget ▸ hin pre.length
    rw [List.enumFrom_cons, List.foldl_cons,
      snakeStep_ascii T input b sep pre.length c (by omega) hc (hin _)]
    have := ih (pre ++ [c]) (b ++ (asciiNext (byteAt input (pre.length - 1)) sep c).1)
      (asciiNext (byteAt input (pre.length - 1)) sep c).2 (by simp) (by rw [hsplit]; simp)
    rw [List.length_append, List.length_singleton, Nat.add_sub_cancel, hget] at this
    rw [this]
    simp [asciiTail]

theorem byteAt_lt_of_ascii (s : GoString) (h : ∀ b ∈ s, b < 0x80) (i : Nat) :
    byteAt s i < 0x80 := by
  unfold byteAt
  by_cases hi : i < s.length
  · rw [List.getD_eq_getElem _ _ hi]
    exact h _ (List.getElem_mem _)
  · rw [List.getD_eq_default _ _ (by omega)]
    omega

theorem ToSnakeCase_ascii (T : UnicodeTables) (a : Nat) (t : GoString)
    (hascii : ∀ b ∈ a :: t, b < 0x80) (hacc : snakeAccepts T (a :: t) = true) :
    ToSnakeCase T (a :: t) = asciiLower a :: asciiTail a false t := by
  have ha : a < 0x80 := hascii a (List.mem_cons_self _ _)
  obtain ⟨_, _, _, hlow⟩ := ascii_facts T a ha
  rw [ToSnakeCase_of_accepts T _ hacc]
  unfold snakeWritten rangeString
  rw [rangeFrom_ascii (a :: t) _ 0 hascii (le_refl _), List.enumFrom_cons, List.foldl_cons]
  have hstep : snakeStep T (a :: t) ([], false) (0, a) = ([asciiLower a], false) := by
    unfold snakeStep
    simp [hlow]
  rw [hstep]
  have := foldl_snakeStep_ascii T (a :: t) (byteAt_lt_of_ascii _ hascii) t [a]
    [asciiLower a] false (by simp) rfl
  simp only [List.length_singleton] at this
  rw [Nat.zero_add, this]
  rfl

theorem asciiLower_facts (c : Nat) :
    isAsciiLetter (asciiLower c) = isAsciiLetter c
      ∧ isAsciiDigit (asciiLower c) = isAsciiDigit c
      ∧ isAsciiUpper (asciiLower c) = false
      ∧ checkSpeChars (asciiLower c) = checkSpeChars c
      ∧ asciiLower (asciiLower c) = asciiLower c := by
  by_cases hup : isAsciiUpper c = true
  · have hr := (isAsciiUpper_iff c).mp hup
    have h4 : asciiLower c = c + 32 := by simp [asciiLower, hup]
    have hnu : isAsciiUpper (c + 32) = false := by
      rw [Bool.eq_false_iff]
      intro h
      have := (isAsciiUpper_iff _).mp h
      omega
    have hsc : checkSpeChars c = false := by rw [checkSpeChars_eq_false]; omega
    have hsl : checkSpeChars (c + 32) = false := by rw [checkSpeChars_eq_false]; omega
    rw [h4]
    refine ⟨?_, ?_, hnu, ?_, ?_⟩
    · rw [Bool.eq_iff_iff, isAsciiLetter_iff, isAsciiLetter_iff]; omega
    · rw [Bool.eq_iff_iff, isAsciiDigit_iff, isAsciiDigit_iff]; omega
    · rw [hsc, hsl]
    · simp [asciiLower, hnu]
  · have hup' : isAsciiUpper c = false := by simpa using hup
    have h4 : asciiLower c = c := by simp [asciiLower, hup']
    rw [h4]
    exact ⟨rfl, rfl, hup', rfl, h4⟩

theorem ascii_class_facts (c : Nat) :
    (isAsciiLetter c = true → checkSpeChars c = false ∧ isAsciiDigit c = false)
      ∧ (isAsciiDigit c = true → checkSpeChars c = false)
      ∧ (isAsciiUpper c = true → isAsciiLetter c = true) := by
  refine ⟨?_, ?_, ?_⟩
  · intro h
    have := (isAsciiLetter_iff c).mp h
    constructor
    · rw [checkSpeChars_eq_false]; omega
    · rw [Bool.eq_false_iff]
      intro hd
      have := (isAsciiDigit_iff c).mp hd
      omega
  · intro h
    have := (isAsciiDigit_iff c).mp h
    rw [checkSpeChars_eq_false]; omega
  · intro h
    have := (isAsciiUpper_iff c).mp h
    rw [isAsciiLetter_iff]; omega

theorem asciiUnder_after_underscore (x : Nat) : asciiUnder 0x5F true x = false := by
  unfold asciiUnder
  have h : isAsciiDigit 0x5F = false := by decide
  rw [h]
  split_ifs <;> rfl

theorem asciiUnder_lower (p q : Nat) (sep : Bool) (c : Nat)
    (hinv : (sep = true ∧ q = 0x5F ∧ checkSpeChars p = true)
      ∨ (sep = false ∧ q = asciiLower p))
    (hu : asciiUnder p sep c = false) : asciiUnder q sep (asciiLower c) = false := by
  obtain ⟨f1, f2, f3, _, _⟩ := asciiLower_facts c
  obtain ⟨_, g2, _, _, _⟩ := asciiLower_facts p
  have h5f : isAsciiDigit 0x5F = false := by decide
  unfold asciiUnder at hu ⊢
  rw [f1, f2, f3]
  rcases hinv with ⟨hs, hq, _⟩ | ⟨hs, hq⟩
  · subst hs; subst hq
    rw [h5f]
    cases hl : isAsciiLetter c <;> cases hd : isAsciiDigit c <;> simp_all
  · subst hs; subst hq
    rw [g2]
    cases hl : isAsciiLetter c <;> cases hd : isAsciiDigit c <;>
      cases hpd : isAsciiDigit p <;> simp_all

theorem asciiUnder_true (p q : Nat) (sep : Bool) (c : Nat)
    (hinv : (sep = true ∧ q = 0x5F ∧ checkSpeChars p = true)
      ∨ (sep = false ∧ q = asciiLower p))
    (hu : asciiUnder p sep c = true) : sep = false ∧ checkSpeChars c = false := by
  obtain ⟨c1, c2, _⟩ := ascii_class_facts c
  obtain ⟨_, p2, _⟩ := ascii_class_facts p
  unfold asciiUnder at hu
  by_cases hl : isAsciiLetter c = true
  · refine ⟨?_, (c1 hl).1⟩
    rcases hinv with ⟨hs, _, hp⟩ | ⟨hs, _⟩
    · subst hs
      have hpd : isAsciiDigit p = false := by
        rw [Bool.eq_false_iff]
        intro hd
        rw [p2 hd] at hp
        exact absurd hp (by decide)
      simp [hl, hpd] at hu
    · exact hs
  · have hl' : isAsciiLetter c = false := by simpa using hl
    by_cases hd : isAsciiDigit c = true
    · refine ⟨?_, c2 hd⟩
      simpa [hl', hd] using hu
    · have hd' : isAsciiDigit c = false := by simpa using hd
      simp [hl', hd'] at hu

theorem asciiTail_idem (t : GoString) :
    ∀ (p q : Nat) (sep : Bool),
      ((sep = true ∧ q = 0x5F ∧ checkSpeChars p = true) ∨ (sep = false ∧ q = asciiLower p)) →
      asciiTail q sep (asciiTail p sep t) = asciiTail p sep t := by
  induction t with
  | nil => intro p q sep _; rfl
  | cons c r ih =>
    intro p q sep hinv
    obtain ⟨_, _, _, f4, f5⟩ := asciiLower_facts c
    have hus : checkSpeChars 0x5F = true := by decide
    by_cases hA : (checkSpeChars c && !sep) = true
    · have hc : checkSpeChars c = true := by
        cases h : checkSpeChars c <;> simp_all
      have hs : sep = false := by
        cases sep <;> simp_all
      subst hs
      have e1 : asciiTail p false (c :: r) = 0x5F :: asciiTail c true r := by
        simp [asciiTail, asciiNext, hc]
      rw [e1]
      have e2 : asciiTail q false (0x5F :: asciiTail c true r)
          = 0x5F :: asciiTail 0x5F true (asciiTail c true r) := by
        simp [asciiTail, asciiNext, hus]
      rw [e2, ih c 0x5F true (Or.inl ⟨rfl, rfl, hc⟩)]
    · have hA' : (checkSpeChars c && !sep) = false := by simpa using hA
      have hA2 : (checkSpeChars (asciiLower c) && !sep) = false := by rw [f4]; exact hA'
      have ihc := ih c (asciiLower c) false (Or.inr ⟨rfl, rfl⟩)
      by_cases hu : asciiUnder p sep c = true
      · obtain ⟨hs, hc⟩ := asciiUnder_true p q sep c hinv hu
        subst hs
        have hcl : checkSpeChars (asciiLower c) = false := by rw [f4]; exact hc
        have e1 : asciiTail p false (c :: r)
            = 0x5F :: asciiLower c :: asciiTail c false r := by
          simp [asciiTail, asciiNext, hc, hu]
        rw [e1]
        have e2 : asciiTail q false (0x5F :: asciiLower c :: asciiTail c false r)
            = 0x5F :: asciiLower c :: asciiTail (asciiLower c) false (asciiTail c false r) := by
          simp [asciiTail, asciiNext, hus, hcl, asciiUnder_after_underscore, f5]
        rw [e2, ihc]
      · have hu' : asciiUnder p sep c = false := by simpa using hu
        have hu2 := asciiUnder_lower p q sep c hinv hu'
        have e1 : asciiTail p sep (c :: r) = asciiLower c :: asciiTail c false r := by
          simp [asciiTail, asciiNext, hA', hu']
        rw [e1]
        have e2 : asciiTail q sep (asciiLower c :: asciiTail c false r)
            = asciiLower c :: asciiTail (asciiLower c) false (asciiTail c false r) := by
          simp [asciiTail, asciiNext, hA2, hu2, f5]
        rw [e2, ihc]

theorem asciiLower_lt (c : Nat) (hc : c < 0x80) : asciiLower c < 0x80 := by
  unfold asciiLower
  by_cases hup : isAsciiUpper c = true
  · have := (isAsciiUpper_iff c).mp hup
    rw [if_pos hup]
    omega
  · rw [if_neg hup]
    exact hc

theorem asciiTail_ascii (t : GoString) :
    ∀ (p : Nat) (sep : Bool), (∀ x ∈ t, x < 0x80) →
      ∀ b ∈ asciiTail p sep t, b < 0x80 := by
  induction t with
  | nil => intro p sep _ b hb; simp [asciiTail] at hb
  | cons c r ih =>
    intro p sep hall b hb
    have hc : c < 0x80 := hall c (List.mem_cons_self _ _)
    have hl := asciiLower_lt c hc
    unfold asciiTail at hb
    rcases List.mem_append.mp hb with hb | hb
    · unfold asciiNext at hb
      split_ifs at hb <;> simp at hb <;> omega
    · exact ih _ _ (fun x hx => hall x (List.mem_cons_of_mem _ hx)) b hb

theorem byteAt_last (l : GoString) : byteAt l (l.length - 1) = l.getLast?.getD 0 := by
  unfold byteAt
  rw [List.getD_eq_getElem?_getD, List.getLast?_eq_getElem?]

theorem asciiTail_last (t : GoString) :
    ∀ (p : Nat) (sep : Bool), t ≠ [] → checkSpeChars (t.getLast?.getD 0) = false →
      (asciiTail p sep t).getLast?.getD 0 = asciiLower (t.getLast?.getD 0) := by
  induction t with
  | nil => intro p sep h _; exact absurd rfl h
  | cons c r ih =>
    intro p sep _ hlast
    cases r with
    | nil =>
      have hc : checkSpeChars c = false := by simpa using hlast
      unfold asciiTail asciiNext
      simp only [hc, Bool.false_and, Bool.false_eq_true, if_false, asciiTail,
        List.append_nil]
      split_ifs <;> simp
    | cons d r' =>
      have hlast' : checkSpeChars ((d :: r').getLast?.getD 0) = false := by
        simpa [List.getLast?_cons_cons] using hlast
      have := ih c (asciiNext p sep c).2 (by simp) hlast'
      have hne : asciiTail c (asciiNext p sep c).2 (d :: r') ≠ [] := by
        unfold asciiTail asciiNext
        split_ifs <;> simp
      conv_lhs => unfold asciiTail
      rw [List.getLast?_cons_cons, ← this]
      cases hT : asciiTail c (asciiNext p sep c).2 (d :: r') with
      | nil => exact absurd hT hne
      | cons x xs =>
        rw [List.getLast?_append, List.getLast?_eq_getLast (x :: xs) (List.cons_ne_nil x xs)]
        rfl

theorem ToSnakeCase_of_not_accepts (T : UnicodeTables) (s : GoString)
    (h : snakeAccepts T s = false) : ToSnakeCase T s = [] := by
  unfold ToSnakeCase
  unfold snakeAccepts at h
  dsimp only
  by_cases hl : s.length = 0
  · rw [if_pos hl]
  · rw [if_neg hl]
    have hne : s.isEmpty = false := by
      cases s with
      | nil => simp at hl
      | cons a t => rfl
    rw [hne] at h
    cases h1 : IsLetter T (byteAt s 0) <;>
      cases h2 : IsLetter T (byteAt s (s.length - 1)) <;>
      cases h3 : IsNumber T (byteAt s (s.length - 1)) <;> simp_all

theorem snakeAccepts_output (T : UnicodeTables) (a : Nat) (t : GoString)
    (hascii : ∀ b ∈ a :: t, b < 0x80) (hacc : snakeAccepts T (a :: t) = true) :
    snakeAccepts T (asciiLower a :: asciiTail a false t) = true := by
  have ha : a < 0x80 := hascii a (List.mem_cons_self _ _)
  have hla := asciiLower_lt a ha
  unfold snakeAccepts at hacc ⊢
  rw [byteAt_last] at hacc ⊢
  have h0 : byteAt (a :: t) 0 = a := rfl
  have h0' : byteAt (asciiLower a :: asciiTail a false t) 0 = asciiLower a := rfl
  rw [h0] at hacc
  rw [h0']
  simp only [List.isEmpty_cons, Bool.not_false, Bool.true_and, Bool.and_eq_true,
    Bool.or_eq_true] at hacc ⊢
  obtain ⟨hfirst, hlast⟩ := hacc
  have hlow : IsLetter T (asciiLower a) = true := by
    rw [(ascii_facts T _ hla).1, (asciiLower_facts a).1, ← (ascii_facts T a ha).1]
    exact hfirst
  refine ⟨hlow, ?_⟩
  cases t with
  | nil => exact Or.inl (by simpa [asciiTail] using hlow)
  | cons d r =>
    have hmem : (d :: r).getLast?.getD 0 ∈ d :: r := by
      have hsome : ∃ x, (d :: r).getLast? = some x := by
        cases h : (d :: r).getLast? with
        | none => simp at h
        | some x => exact ⟨x, rfl⟩
      obtain ⟨x, hx⟩ := hsome
      rw [hx]
      exact List.mem_of_getLast?_eq_some hx
    have hc : (d :: r).getLast?.getD 0 < 0x80 := hascii _ (List.mem_cons_of_mem _ hmem)
    rw [List.getLast?_cons_cons] at hlast
    have hsep : checkSpeChars ((d :: r).getLast?.getD 0) = false := by
      rcases hlast with h | h
      · exact checkSpeChars_of_letter T _ h
      · exact checkSpeChars_of_number T _ h
    have hout := asciiTail_last (d :: r) a false (by simp) hsep
    have hne : asciiTail a false (d :: r) ≠ [] := by
      unfold asciiTail asciiNext
      split_ifs <;> simp
    have hlo : (asciiLower a :: asciiTail a false (d :: r)).getLast?.getD 0
        = asciiLower ((d :: r).getLast?.getD 0) := by
      rw [← hout]
      cases hT : asciiTail a false (d :: r) with
      | nil => exact absurd hT hne
      | cons x xs => rw [List.getLast?_cons_cons]
    rw [hlo]
    have hlc := asciiLower_lt _ hc
    rw [(ascii_facts T _ hlc).1, (ascii_facts T _ hlc).2.1, (asciiLower_facts _).1,
      (asciiLower_facts _).2.1, ← (ascii_facts T _ hc).1, ← (ascii_facts T _ hc).2.1]
    exact hlast

/-- When no field panics the call returns what `reflectValue` gives. -/
theorem reflectValueOutcome_of_no_panic (T : UnicodeTables) (c : defaultTag)
    (fields : List Field) :
    ∀ (values : UrlValues), (∀ f ∈ fields, fieldStepPanics T c f = false) →
      reflectValueOutcome T c values fields = .returns (reflectValue T c values fields) := by
  induction fields with
  | nil => intro values _; rfl
  | cons f rest ih =>
    intro values h
    have hf := h f (List.mem_cons_self _ _)
    have hrest : ∀ g ∈ rest, fieldStepPanics T c g = false :=
      fun g hg => h g (List.mem_cons_of_mem _ hg)
    unfold reflectValueOutcome
    rw [hf, reflectValue_cons]
    simp only [Bool.false_eq_true, if_false]
    cases fieldStep T c values f with
    | next v => exact ih v hrest
    | done r => rfl

/-- A field that neither panics nor changes the values may be removed:
the call does the same without it. -/
theorem reflectValueOutcome_remove (T : UnicodeTables) (c : defaultTag) (f : Field)
    (hp : fieldStepPanics T c f = false) (hf : ∀ v, fieldStep T c v f = .next v)
    (post : List Field) (pre : List Field) :
    ∀ values, reflectValueOutcome T c values (pre ++ f :: post)
      = reflectValueOutcome T c values (pre ++ post) := by
  induction pre with
  | nil =>
    intro values
    rw [List.nil_append, List.nil_append]
    conv_lhs => unfold reflectValueOutcome
    rw [hp, hf]
    simp only [Bool.false_eq_true, if_false]
  | cons p pre ih =>
    intro values
    rw [List.cons_append, List.cons_append]
    conv_lhs => unfold reflectValueOutcome
    conv_rhs => unfold reflectValueOutcome
    by_cases hpp : fieldStepPanics T c p = true
    · rw [if_pos hpp, if_pos hpp]
    · rw [if_neg hpp, if_neg hpp]
      cases fieldStep T c values p with
      | next v => exact ih v
      | done r => rfl

/-- An exported field does not make the loop panic. -/
theorem fieldStepPanics_exported (T : UnicodeTables) (c : defaultTag) (f : Field)
    (h : f.PkgPath = []) : fieldStepPanics T c f = false := by
  unfold fieldStepPanics
  rw [h]
  rfl

/-- A field of struct kind that is no `Encoder` does not make the loop
panic when it is exported, or not embedded, or has no `omitempty` option. -/
theorem fieldStepPanics_struct (T : UnicodeTables) (c : defaultTag) (f : Field)
    (inner : List Field) (iz : Option Bool) (hs : f.value = .struct inner iz)
    (he : f.encode = none)
    (hread : f.PkgPath = [] ∨ f.Anonymous = false
      ∨ Contains (ParseTag (c.Get T f).1).2 (str "omitempty") = false) :
    fieldStepPanics T c f = false := by
  unfold fieldStepPanics
  rcases hread with h | h | h
  · rw [h]; rfl
  · by_cases hp : f.PkgPath = []
    · rw [hp]; rfl
    · have : fieldStepReads T c f = false := by
        unfold fieldStepReads
        rw [h]
        simp [hp]
      rw [this, Bool.and_false]
  · have : fieldStepReads T c f = false := by
      unfold fieldStepReads
      dsimp only
      rw [hs, he, h]
      simp only [Bool.false_and, Bool.false_eq_true, if_false]
      split_ifs <;> rfl
    rw [this, Bool.and_false]

/-! ## The claims -/

/-- C1 (the code departs from it): a nil pointer field ends the whole
traversal.  For `struct { A *string; B string }` with `A` nil and `B = "x"`
(tags `a`, `b`) `Values` returns no entry at all, while for the struct
without `A` it returns `b = x`: the field `B`, declared after the nil
pointer, is not encoded. -/
theorem C1_nil_pointer_ends_traversal (T : UnicodeTables) :
    Values T (.value (.struct [fieldNilPtr, fieldB] none)) = .ok []
      ∧ Values T (.value (.struct [fieldB] none)) = .ok [(str "b", [str "x"])] :=
  ⟨rfl, rfl⟩

/-- C2, as the code has it: a field of struct kind whose type is neither
`time.Time` nor an `Encoder`, embedded or not, and which is exported, or
not embedded, or has no `omitempty` option, adds no entry, and its own
fields are not visited:
`Values` does what it does for the struct without that field (the same
result, or a panic in both cases), for a struct and for a pointer to one. -/
theorem C2_struct_field_adds_nothing (T : UnicodeTables) (c : defaultTag)
    (pre post : List Field) (f : Field) (z : Option Bool) (inner : List Field)
    (iz : Option Bool) (hs : f.value = .struct inner iz) (he : f.encode = none)
    (hread : f.PkgPath = [] ∨ f.Anonymous = false
      ∨ Contains (ParseTag (c.Get T f).1).2 (str "omitempty") = false) :
    Converter.ValuesOutcome T c (.value (.struct (pre ++ f :: post) z))
        = Converter.ValuesOutcome T c (.value (.struct (pre ++ post) z))
      ∧ Converter.ValuesOutcome T c (.value (.ptr (some (.struct (pre ++ f :: post) z))))
        = Converter.ValuesOutcome T c (.value (.ptr (some (.struct (pre ++ post) z))))
      ∧ Converter.Values T c (.value (.struct (pre ++ f :: post) z))
        = Converter.Values T c (.value (.struct (pre ++ post) z))
      ∧ Converter.Values T c (.value (.ptr (some (.struct (pre ++ f :: post) z))))
        = Converter.Values T c (.value (.ptr (some (.struct (pre ++ post) z)))) := by
  have hp := fieldStepPanics_struct T c f inner iz hs he hread
  have hf := fieldStep_struct T c f inner iz hs he
  refine ⟨?_, ?_, ?_, ?_⟩
  · change reflectValueOutcome T c [] (pre ++ f :: post)
      = reflectValueOutcome T c [] (pre ++ post)
    exact reflectValueOutcome_remove T c f hp hf post pre []
  · change reflectValueOutcome T c [] (pre ++ f :: post)
      = reflectValueOutcome T c [] (pre ++ post)
    exact reflectValueOutcome_remove T c f hp hf post pre []
  · change reflectValue T c [] (pre ++ f :: post) = reflectValue T c [] (pre ++ post)
    exact reflectValue_remove T c f hf post pre []
  · change reflectValue T c [] (pre ++ f :: post) = reflectValue T c [] (pre ++ post)
    exact reflectValue_remove T c f hf post pre []

/-- C2 at the struct with the embedded field `Inner` followed by `Y`, and
with the unexported embedded field `inner` (no `omitempty`) in the place of
`Inner`: the call returns what it returns for the struct with `Y` alone,
`y = w`. -/
theorem C2_struct_field_adds_nothing_witness :
    Converter.ValuesOutcome noTables (NewTag [])
        (.value (.struct ([] ++ fieldInner :: [fieldY]) none))
        = Converter.ValuesOutcome noTables (NewTag []) (.value (.struct ([] ++ [fieldY]) none))
      ∧ Converter.ValuesOutcome noTables (NewTag [])
        (.value (.struct ([] ++ fieldInnerUnexported :: [fieldY]) none))
        = Converter.ValuesOutcome noTables (NewTag []) (.value (.struct ([] ++ [fieldY]) none))
      ∧ Converter.ValuesOutcome noTables (NewTag []) (.value (.struct ([] ++ [fieldY]) none))
        = .returns (.ok [(str "y", [str "w"])]) :=
  ⟨(C2_struct_field_adds_nothing noTables (NewTag []) [] [fieldY] fieldInner none [fieldX] none
      rfl rfl (Or.inl rfl)).1,
   (C2_struct_field_adds_nothing noTables (NewTag []) [] [fieldY] fieldInnerUnexported none
      [fieldX] none rfl rfl (Or.inr (Or.inr (by decide)))).1,
   rfl⟩

/-- C2 as stated fails: for the struct with the embedded field
`Inner` (of type `struct { X string }`, `X = "v"`) followed by
`Y = "w"`, `Values` returns only `y = w` (it returns: nothing panics); with
`X` declared directly on the outer struct in the place of `Inner` it returns
`x = v` and `y = w`. -/
theorem C2_embedded_fields_not_encoded :
    (∀ T, Values T (.value (.struct [fieldInner, fieldY] none))
        = .ok [(str "y", [str "w"])])
      ∧ (∀ T, Converter.ValuesOutcome T (NewTag []) (.value (.struct [fieldInner, fieldY] none))
        = .returns (.ok [(str "y", [str "w"])]))
      ∧ (∀ T, Values T (.value (.struct [fieldX, fieldY] none))
        = .ok [(str "x", [str "v"]), (str "y", [str "w"])]) :=
  ⟨fun _ => rfl, fun _ => rfl, fun _ => rfl⟩

/-- C3 (the code departs from it): on `foo__bar` the two conversions differ
after the first character.  `ToCamelCase` drops both separators and
uppercases the `b`, `ToPascalCase` writes the second separator and leaves
the `b` as it is. -/
theorem C3_pascal_differs_from_camel (T : UnicodeTables) :
    ToCamelCase T (str "foo__bar") = str "fooBar"
      ∧ ToPascalCase T (str "foo__bar") = str "Foo_bar" :=
  ⟨rfl, rfl⟩

/-- C4: `ToCamelCase s` and `ToPascalCase s` are the empty string exactly
when `s` is not a valid name (non-empty, first character a letter, last a
letter or digit, every other one a letter, a digit, `_`, `-` or `.`). -/
theorem C4_empty_iff_invalid (T : UnicodeTables) (s : GoString) :
    (ToCamelCase T s = [] ↔ validName T s = false)
      ∧ (ToPascalCase T s = [] ↔ validName T s = false) :=
  ⟨ToCamelCase_eq_nil T s, ToPascalCase_eq_nil T s⟩

/-- C5 (the code departs from it): `ToSnakeCase` has no check of the
characters between the first and the last.  `foo bar` holds a space, and
the result is `foo bar`, not the empty string; `ToCamelCase` returns the
empty string on the same input. -/
theorem C5_snake_keeps_disallowed_character (T : UnicodeTables) :
    ToSnakeCase T (str "foo bar") = str "foo bar"
      ∧ ToCamelCase T (str "foo bar") = [] :=
  ⟨rfl, rfl⟩

/-- C6 (the code departs from it): a run of separators is not turned into
one `_`.  `foo__bar` gives `foo__bar` and `foo-.bar` gives `foo_.bar`: the
second separator of a run is written as it is. -/
theorem C6_snake_keeps_second_separator (T : UnicodeTables) :
    ToSnakeCase T (str "foo__bar") = str "foo__bar"
      ∧ ToSnakeCase T (str "foo-.bar") = str "foo_.bar" :=
  ⟨rfl, rfl⟩

/-- C7, as the code has it: `ToSnakeCase` writes `_` before every digit
that comes right after a character that is no separator, a letter or
another digit alike.  When the iterations of the loop are `pre`, then the
character `p` (no separator), then the digit `d`, then `post`, the result
is what is written up to `p`, then `_` and the digit, then what is written
for `post`.  (A digit is a rune for which `IsNumber` holds and `IsLetter`
does not; the source tests `IsLetter` first.) -/
theorem C7_underscore_before_digit (T : UnicodeTables) (input : GoString)
    (pre post : List (Nat × Nat)) (j p i d : Nat)
    (hacc : snakeAccepts T input = true)
    (hr : rangeString input = pre ++ (j, p) :: (i, d) :: post)
    (hp : checkSpeChars p = false)
    (hd : IsNumber T d = true) (hl : IsLetter T d = false) :
    ToSnakeCase T input
      = snakeWritten T input false (pre ++ [(j, p)])
          ++ 0x5F :: utf8Encode (ToLower T d) ++ snakeWritten T input false post := by
  have htail := rangeFrom_tail_offset input.length 0 input
  have hi : i ≠ 0 := by
    have hmem : (i, d) ∈ (rangeFrom input.length 0 input).tail := by
      have hr' : rangeFrom input.length 0 input = pre ++ (j, p) :: (i, d) :: post := hr
      rw [hr']
      cases pre <;> simp
    have := htail (i, d) hmem
    simp only at this
    omega
  have hj : pre ≠ [] → j ≠ 0 := by
    intro hne
    have hmem : (j, p) ∈ (rangeFrom input.length 0 input).tail := by
      have hr' : rangeFrom input.length 0 input = pre ++ (j, p) :: (i, d) :: post := hr
      rw [hr']
      cases pre with
      | nil => exact absurd rfl hne
      | cons x pre => simp
    have := htail (j, p) hmem
    simp only at this
    omega
  have hflag : (List.foldl (snakeStep T input) ([], false) (pre ++ [(j, p)])).2 = false := by
    rw [List.foldl_append, List.foldl_cons, List.foldl_nil]
    apply snakeStep_flag_of_non_separator T input _ j p hp
    intro h0
    by_cases hne : pre = []
    · subst hne; rfl
    · exact absurd h0 (hj hne)
  rw [ToSnakeCase_of_accepts T input hacc, hr]
  unfold snakeWritten
  have hsplit : pre ++ (j, p) :: (i, d) :: post = (pre ++ [(j, p)]) ++ (i, d) :: post := by
    simp
  rw [hsplit, List.foldl_append, List.foldl_cons]
  generalize hS : List.foldl (snakeStep T input) ([], false) (pre ++ [(j, p)]) = S at hflag ⊢
  obtain ⟨out, flag⟩ := S
  simp only at hflag
  subst hflag
  rw [snakeStep_number T input out i d hi hd hl, foldl_snakeStep_append]

/-- C7 at `a12`, for the digit `1` after the letter `a` and for the digit
`2` after the digit `1`: the result is `a_1_2`. -/
theorem C7_underscore_before_digit_witness :
    ToSnakeCase noTables (str "a12")
        = snakeWritten noTables (str "a12") false ([] ++ [(0, 0x61)])
          ++ 0x5F :: utf8Encode (ToLower noTables 0x31)
          ++ snakeWritten noTables (str "a12") false [(2, 0x32)]
      ∧ ToSnakeCase noTables (str "a12")
        = snakeWritten noTables (str "a12") false ([(0, 0x61)] ++ [(1, 0x31)])
          ++ 0x5F :: utf8Encode (ToLower noTables 0x32)
          ++ snakeWritten noTables (str "a12") false []
      ∧ ToSnakeCase noTables (str "a12") = str "a_1_2" :=
  ⟨C7_underscore_before_digit noTables (str "a12") [] [(2, 0x32)] 0 0x61 1 0x31
      (by decide) (by decide) (by decide) (by decide) (by decide),
   C7_underscore_before_digit noTables (str "a12") [(0, 0x61)] [] 1 0x31 2 0x32
      (by decide) (by decide) (by decide) (by decide) (by decide),
   by decide⟩

/-- C7 as stated fails: `a12` is a valid name and `ToSnakeCase` returns
`a_1_2` for it, with a `_` before the digit `2` that follows the digit
`1`, not `a_12`. -/
theorem C7_digit_after_digit_gets_underscore :
    validName noTables (str "a12") = true
      ∧ (∀ T, ToSnakeCase T (str "a12") = str "a_1_2")
      ∧ str "a_1_2" ≠ str "a_12" :=
  ⟨by decide, fun _ => rfl, by decide⟩

/-- C8: on a valid name `ToCamelCase` returns the lowercased first
character followed, for each later character that is no separator, by its
uppercase when the character just before it is a separator and by the
character itself otherwise (`camelSpec`); and no byte of the result is one
of `_`, `-`, `.`. -/
theorem C8_camel_of_valid (T : UnicodeTables) (s : GoString)
    (hv : validName T s = true) (hb : ∀ b ∈ s, b < 256) :
    ToCamelCase T s = camelSpec T s
      ∧ ∀ b ∈ ToCamelCase T s, checkSpeChars b = false := by
  refine ⟨ToCamelCase_of_valid T s hv, ?_⟩
  rw [ToCamelCase_of_valid T s hv]
  cases s with
  | nil => intro b h; simp [camelSpec] at h
  | cons a t =>
    obtain ⟨h1, _, _⟩ := validName_cons T a t hv
    have ha : a < 256 := hb a (List.mem_cons_self _ _)
    have ht : ∀ x ∈ t, x < 256 := fun x hx => hb x (List.mem_cons_of_mem _ hx)
    intro b hmem
    unfold camelSpec at hmem
    rcases List.mem_append.mp hmem with hmem | hmem
    · exact utf8Encode_no_separator _
        (ToLower_no_separator T a ha (checkSpeChars_of_letter T a h1)) b hmem
    · exact camelTail_no_separator T t a ht b hmem

/-- C8 at `Hello_world-2.hi`, which gives `helloWorld2Hi`. -/
theorem C8_camel_of_valid_witness :
    ToCamelCase noTables (str "Hello_world-2.hi") = camelSpec noTables (str "Hello_world-2.hi")
      ∧ (∀ b ∈ ToCamelCase noTables (str "Hello_world-2.hi"), checkSpeChars b = false)
      ∧ camelSpec noTables (str "Hello_world-2.hi") = str "helloWorld2Hi" :=
  ⟨(C8_camel_of_valid noTables (str "Hello_world-2.hi") (by decide) (by decide)).1,
   (C8_camel_of_valid noTables (str "Hello_world-2.hi") (by decide) (by decide)).2,
   by decide⟩

/-- C9: on a non-empty input of ASCII letters only, `ToSnakeCase` returns
the input lowercased with one `_` before each character other than the
first that was uppercase (`snakeOfLetters`). -/
theorem C9_snake_of_letters (T : UnicodeTables) (s : GoString) (hne : s ≠ [])
    (hall : ∀ b ∈ s, isAsciiLetter b = true) :
    ToSnakeCase T s = snakeOfLetters s := by
  cases s with
  | nil => exact absurd rfl hne
  | cons a t =>
    have hin : ∀ i, i < (a :: t).length → isAsciiLetter (byteAt (a :: t) i) = true := by
      intro i hi
      have : byteAt (a :: t) i = (a :: t)[i] := by
        unfold byteAt; exact List.getD_eq_getElem _ _ hi
      rw [this]
      exact hall _ (List.getElem_mem _)
    have hascii : ∀ b ∈ a :: t, b < 0x80 := by
      intro b hb
      have := (isAsciiLetter_iff b).mp (hall b hb)
      omega
    obtain ⟨hfirst, _, _, hlow, _⟩ := asciiLetter_facts T a (hall a (List.mem_cons_self _ _))
    have hlast : IsLetter T (byteAt (a :: t) ((a :: t).length - 1)) = true :=
      (asciiLetter_facts T _ (hin ((a :: t).length - 1) (by simp))).1
    have hacc : snakeAccepts T (a :: t) = true := by
      unfold snakeAccepts
      have h0 : byteAt (a :: t) 0 = a := rfl
      rw [h0, hfirst, hlast]
      rfl
    rw [ToSnakeCase_of_accepts T _ hacc]
    unfold snakeWritten rangeString
    rw [rangeFrom_ascii (a :: t) _ 0 hascii (le_refl _), List.enumFrom_cons, List.foldl_cons]
    have hstep : snakeStep T (a :: t) ([], false) (0, a) = ([asciiLower a], false) := by
      unfold snakeStep
      simp [hlow]
    rw [hstep]
    have := foldl_snakeStep_letters T (a :: t) hin t [a] [asciiLower a] (by simp) rfl
    simp only [List.length_singleton] at this
    rw [Nat.zero_add, this]
    rfl

/-- C9 at `HelloWorld` and at `helloworld`. -/
theorem C9_snake_of_letters_witness :
    ToSnakeCase noTables (str "HelloWorld") = snakeOfLetters (str "HelloWorld")
      ∧ snakeOfLetters (str "HelloWorld") = str "hello_world"
      ∧ ToSnakeCase noTables (str "helloworld") = snakeOfLetters (str "helloworld")
      ∧ snakeOfLetters (str "helloworld") = str "helloworld" :=
  ⟨C9_snake_of_letters noTables (str "HelloWorld") (by decide) (by decide), by decide,
   C9_snake_of_letters noTables (str "helloworld") (by decide) (by decide), by decide⟩

/-- C10: for every strategy other than `camel`, `pascal` and `snake`,
`Convert` returns its argument unchanged. -/
theorem C10_convert_identity (T : UnicodeTables) (n x : GoString)
    (hc : n ≠ str "camel") (hp : n ≠ str "pascal") (hs : n ≠ str "snake") :
    Convert T n x = x := by
  simp [Convert, hc, hp, hs]

/-- C10 at the empty strategy and at an unknown one, on names the three
named strategies reject. -/
theorem C10_convert_identity_witness :
    Convert noTables (str "") (str "1foo bar-") = str "1foo bar-"
      ∧ Convert noTables (str "none") (str "") = str "" :=
  ⟨C10_convert_identity noTables (str "") (str "1foo bar-") (by decide) (by decide) (by decide),
   C10_convert_identity noTables (str "none") (str "") (by decide) (by decide) (by decide)⟩

/-- C13 (the code departs from it): a pointer to a map is refused.  For
`m = map[string]string{"a": "b"}` the call `Values(&m)` fails with
`unsupported type reflect.Kind`, while `Values(m)` returns `a = b`: the
test for a map comes before the pointer is followed, and after it only a
struct is accepted. -/
theorem C13_pointer_to_map_refused (T : UnicodeTables) :
    Values T (.value (.ptr (some (stringMap [(str "a", str "b")]))))
        = .error (str "unsupported type reflect.Kind")
      ∧ Values T (.value (stringMap [(str "a", str "b")])) = .ok [(str "a", [str "b"])] :=
  ⟨rfl, rfl⟩

/-- C14, as the code has it: a map whose key type is not string is refused
with `map key must be a string`, and a map with string keys that holds an
entry whose value is not of kind string is refused with `map value must be
a string`; no collection is returned. -/
theorem C14_map_type_mismatch (T : UnicodeTables) (c : defaultTag) (keyIsString : Bool)
    (entries : List (GoString × Value))
    (h : keyIsString = false ∨ ∃ e ∈ entries, isStringKind e.2 = false) :
    Converter.Values T c (.value (.map keyIsString entries))
      = .error (if keyIsString then str "map value must be a string"
          else str "map key must be a string") := by
  unfold Converter.Values
  cases keyIsString with
  | false => rfl
  | true =>
    rcases h with h | h
    · exact absurd h (by decide)
    · simpa using addMapEntries_error entries [] h

/-- C14 at an empty `map[int]string` and at `map[string]int{"a": 1}`. -/
theorem C14_map_type_mismatch_witness :
    Converter.Values noTables (NewTag []) (.value (.map false []))
        = .error (str "map key must be a string")
      ∧ Converter.Values noTables (NewTag []) (.value (.map true [(str "a", .int 1)]))
        = .error (str "map value must be a string") :=
  ⟨C14_map_type_mismatch noTables (NewTag []) false [] (Or.inl rfl),
   C14_map_type_mismatch noTables (NewTag []) true [(str "a", .int 1)]
     (Or.inr ⟨(str "a", .int 1), by simp, rfl⟩)⟩

/-- C14 as stated fails: a map with string keys and no entries is encoded
without error, to the empty collection, whatever its value type (the
source never reads the value type, only the kind of each entry's value;
this is `map[string]int{}` as well as `map[string]string{}`); the same
map with the entry `a = 1` is refused. -/
theorem C14_empty_map_is_accepted :
    (∀ T c, Converter.Values T c (.value (.map true [])) = .ok [])
      ∧ (∀ T c, Converter.Values T c (.value (.map true [(str "a", .int 1)]))
          = .error (str "map value must be a string")) :=
  ⟨fun _ _ => rfl, fun _ _ => rfl⟩

/-- C15: for a map from string to string (its keys are distinct) `Values`
succeeds, with one key per entry, each carrying the one value of the
entry, and `Get` returns that value. -/
theorem C15_string_map_entries (T : UnicodeTables) (c : defaultTag)
    (m : List (GoString × GoString)) (hnd : (m.map Prod.fst).Nodup) :
    Converter.Values T c (.value (stringMap m)) = .ok (m.map (fun kv => (kv.1, [kv.2])))
      ∧ Values T (.value (stringMap m)) = .ok (m.map (fun kv => (kv.1, [kv.2])))
      ∧ ∀ kv ∈ m, Get (m.map (fun kv => (kv.1, [kv.2]))) kv.1 = kv.2 := by
  have h := addMapEntries_stringMap m [] (by simpa using hnd)
  refine ⟨?_, ?_, Get_of_mem m hnd⟩
  · unfold Converter.Values stringMap
    simpa using h
  · unfold Values Converter.Values stringMap
    simpa using h

/-- C15 at the map of the test, `hello = world`, `foo = bar`, `empty = ""`. -/
theorem C15_string_map_entries_witness :
    Values noTables (.value (stringMap
        [(str "hello", str "world"), (str "foo", str "bar"), (str "empty", str "")]))
      = .ok [(str "hello", [str "world"]), (str "foo", [str "bar"]), (str "empty", [str ""])] :=
  (C15_string_map_entries noTables (NewTag [])
    [(str "hello", str "world"), (str "foo", str "bar"), (str "empty", str "")]
    (by decide)).2.1

/-- C16: a `url.Values` is returned as it is, without error; and encoding
the result of an encoding gives that result again (`valuesTwice` is
`Values(Values(v))`, and an error when the first call fails). -/
theorem C16_values_passthrough (T : UnicodeTables) (c : defaultTag) (x : UrlValues)
    (v : Input) :
    Converter.Values T c (.urlValues x) = .ok x
      ∧ valuesTwice T c v = Converter.Values T c v := by
  refine ⟨rfl, ?_⟩
  unfold valuesTwice
  cases Converter.Values T c v with
  | ok r => rfl
  | error e => rfl

/-- C11, as the code has it: for a directive `d` that is not the skip
sentinel and whose first segment is empty, under a non-empty strategy, the
field is included; when `d` is the empty string `Get` returns
`Convert(s, f)`, which is the output name, without options, when it holds
no comma; when `d` is not empty (`,omitempty`) the strategy is not
applied: the output name is the empty string and the options are the
remaining segments of `d`. -/
theorem C11_empty_name_part (T : UnicodeTables) (c : defaultTag) (f : Field)
    (hskip : tagGet f.Tag c.tagType ≠ c.skip) (hs : IsEmpty c.useName = false)
    (hfirst : (ParseTag (tagGet f.Tag c.tagType)).1 = []) :
    (c.Get T f).2 = true
      ∧ (tagGet f.Tag c.tagType = [] →
          (c.Get T f).1 = Convert T c.useName f.Name
            ∧ (0x2C ∉ Convert T c.useName f.Name →
                ParseTag (c.Get T f).1 = (Convert T c.useName f.Name, [])))
      ∧ (tagGet f.Tag c.tagType ≠ [] →
          ParseTag (c.Get T f).1 = ([], (ParseTag (tagGet f.Tag c.tagType)).2)) := by
  unfold defaultTag.Get
  dsimp only
  rw [if_neg hskip]
  by_cases hd : tagGet f.Tag c.tagType = []
  · rw [if_pos ⟨hd, by simp [hs]⟩]
    refine ⟨rfl, fun _ => ⟨rfl, fun hc => ParseTag_of_no_comma _ hc⟩, fun h => absurd hd h⟩
  · rw [if_neg (fun h => hd h.1)]
    refine ⟨rfl, fun h => absurd h hd, fun _ => ?_⟩
    exact Prod.ext hfirst rfl

/-- C11 under the default configuration, at an untagged field `HelloWorld`
and at a field `Foo` with the directive `,omitempty`. -/
theorem C11_empty_name_part_witness :
    ParseTag ((NewTag []).Get noTables fieldHelloWorld).1 = (str "hello_world", [])
      ∧ ParseTag ((NewTag []).Get noTables fieldOmitNoName).1 = ([], [str "omitempty"]) :=
  ⟨((C11_empty_name_part noTables (NewTag []) fieldHelloWorld (by decide) (by decide)
      (by decide)).2.1 (by decide)).2 (by decide),
   (C11_empty_name_part noTables (NewTag []) fieldOmitNoName (by decide) (by decide)
      (by decide)).2.2 (by decide)⟩

/-- C11 as stated fails: under the default configuration (strategy
`snake`) the field `Foo` with the directive `,omitempty` gets the empty
output name, not `Convert(snake, "Foo") = "foo"`. -/
theorem C11_omitempty_alone_gives_empty_name :
    (∀ T, ParseTag ((NewTag []).Get T fieldOmitNoName).1 = ([], [str "omitempty"]))
      ∧ (∀ T, Convert T (str "snake") (str "Foo") = str "foo") :=
  ⟨fun _ => rfl, fun _ => rfl⟩

/-- C20: `NewTag()` has the directive key `url`, the skip sentinel `-` and
the strategy `snake`, and `NewTag(WithTag(t))` differs in the key only;
under `NewTag()` a field without `url` directive is included, with the
output name `ToSnakeCase(fieldName)` and no options.  (A field name holds no
comma, and no lowercase mapping yields one.) -/
theorem C20_default_configuration (T : UnicodeTables) (f : Field) (t : GoString)
    (hno : tagGet f.Tag (str "url") = []) (hname : 0x2C ∉ f.Name)
    (hT : ∀ r, 0xFF < r → T.toLower r ≠ 0x2C) :
    NewTag [] = { tagType := str "url", skip := str "-", useName := str "snake" }
      ∧ NewTag [WithTag t] = { tagType := t, skip := str "-", useName := str "snake" }
      ∧ (NewTag []).Get T f = (ToSnakeCase T f.Name, true)
      ∧ ParseTag ((NewTag []).Get T f).1 = (ToSnakeCase T f.Name, []) := by
  have hget : (NewTag []).Get T f = (ToSnakeCase T f.Name, true) := by
    unfold defaultTag.Get
    have h1 : (NewTag []).tagType = str "url" := rfl
    have h2 : (NewTag []).skip = str "-" := rfl
    have h3 : (NewTag []).useName = str "snake" := rfl
    dsimp only
    rw [h1, h2, h3, hno]
    rfl
  refine ⟨rfl, rfl, hget, ?_⟩
  rw [hget]
  exact ParseTag_of_no_comma _ (ToSnakeCase_no_comma T hT f.Name hname)

/-- C20 at the untagged field `HelloWorld`, which is emitted under
`hello_world`. -/
theorem C20_default_configuration_witness :
    ParseTag ((NewTag []).Get noTables fieldHelloWorld).1
        = (ToSnakeCase noTables (str "HelloWorld"), [])
      ∧ NewTag [WithTag (str "form")]
        = { tagType := str "form", skip := str "-", useName := str "snake" }
      ∧ Values noTables (.value (.struct [fieldHelloWorld] none))
        = .ok [(str "hello_world", [str "x"])] :=
  ⟨(C20_default_configuration noTables fieldHelloWorld (str "form") (by decide) (by decide)
      (by intro r hr; simp only [noTables]; omega)).2.2.2,
   (C20_default_configuration noTables fieldHelloWorld (str "form") (by decide) (by decide)
      (by intro r hr; simp only [noTables]; omega)).2.1,
   rfl⟩

/-- C17 (the code departs from it): for an unexported embedded field of
struct kind with the option `omitempty` the call panics.  The struct
`{ B string; inner; Y string }`, where the embedded `inner` has the
directive `x,omitempty` and a type with `IsZero() = true`, makes `Values`
panic in `isEmptyValue` (at `v.Interface()`); the claim says the result is
the one for the struct without the field, `b = x`, `y = w`, which is what
the call returns when the embedded field is exported. -/
theorem C17_unexported_embedded_omitempty_panics (T : UnicodeTables) :
    Converter.ValuesOutcome T (NewTag [])
        (.value (.struct [fieldB, fieldZeroUnexported, fieldY] none)) = .panics
      ∧ Converter.ValuesOutcome T (NewTag []) (.value (.struct [fieldB, fieldY] none))
        = .returns (.ok [(str "b", [str "x"]), (str "y", [str "w"])])
      ∧ Converter.ValuesOutcome T (NewTag [])
        (.value (.struct [fieldB, fieldZeroExported, fieldY] none))
        = .returns (.ok [(str "b", [str "x"]), (str "y", [str "w"])]) :=
  ⟨rfl, rfl, rfl⟩

/-- C18: a field whose directive is the skip sentinel adds no entry,
whatever its value, its type and the result its `Encode()` would give:
`Values` returns what it returns for the struct without the field. -/
theorem C18_skip_removes_field (T : UnicodeTables) (c : defaultTag)
    (pre post : List Field) (f : Field) (z : Option Bool)
    (hskip : tagGet f.Tag c.tagType = c.skip) :
    Converter.Values T c (.value (.struct (pre ++ f :: post) z))
      = Converter.Values T c (.value (.struct (pre ++ post) z)) := by
  unfold Converter.Values
  exact reflectValue_remove T c f (fieldStep_skip T c f hskip) post pre []

/-- C18 at the struct of the fields `B = "x"`, `Skip` (directive `-`, a nil
pointer whose `Encode()` would fail) and `Y = "w"`: the result is `b = x`,
`y = w`, without error. -/
theorem C18_skip_removes_field_witness :
    Converter.Values noTables (NewTag [])
        (.value (.struct ([fieldB] ++ fieldSkipped :: [fieldY]) none))
        = Converter.Values noTables (NewTag []) (.value (.struct ([fieldB] ++ [fieldY]) none))
      ∧ Converter.Values noTables (NewTag [])
        (.value (.struct ([fieldB] ++ fieldSkipped :: [fieldY]) none))
        = .ok [(str "b", [str "x"]), (str "y", [str "w"])] :=
  ⟨C18_skip_removes_field noTables (NewTag []) [fieldB] [fieldY] fieldSkipped none
      (by decide),
   rfl⟩

/-- C19 (the code departs from it): for an unexported embedded field
whose type implements `Encoder` the call panics.  The struct
`{ B string; sub; Y string }`, where the embedded `sub` has the directive
`sub` and `Encode()` returns `x-y`, `z`, makes `Values` panic at
`sv.Interface().(Encoder)`, before `Encode()` is called; the claim says
the two strings are appended under `sub`, which is what the call does for
an exported field, and a failing `Encode()` of an exported field is
returned as the error. -/
theorem C19_unexported_embedded_encoder_panics (T : UnicodeTables) :
    Converter.ValuesOutcome T (NewTag [])
        (.value (.struct [fieldB, fieldSubUnexported, fieldY] none)) = .panics
      ∧ Converter.ValuesOutcome T (NewTag [])
        (.value (.struct [fieldB, fieldSubOk, fieldY] none))
        = .returns (.ok [(str "b", [str "x"]), (str "sub", [str "x-y", str "z"]),
            (str "y", [str "w"])])
      ∧ Converter.ValuesOutcome T (NewTag [])
        (.value (.struct [fieldB, fieldSubErr, fieldY] none))
        = .returns (.error (str "boom")) :=
  ⟨rfl, rfl, rfl⟩

/-- C21 (the code departs from it): a slice field declared after a nil
pointer field is not encoded.  For `{ A *string; Slice []string }` with `A`
nil and `Slice = [a, b, c]` (tags `a`, `slice`) `Values` returns no entry,
without panic: the loop has ended at `A`; for the struct without `A` it
returns `slice = a, b, c`, the three values the claim speaks of. -/
theorem C21_slice_after_nil_pointer_not_encoded (T : UnicodeTables) :
    Values T (.value (.struct [fieldNilPtr, fieldSlice] none)) = .ok []
      ∧ Converter.ValuesOutcome T (NewTag [])
        (.value (.struct [fieldNilPtr, fieldSlice] none)) = .returns (.ok [])
      ∧ Values T (.value (.struct [fieldSlice] none))
        = .ok [(str "slice", [str "a", str "b", str "c"])] :=
  ⟨rfl, rfl, rfl⟩

/-- C22: on ASCII input `ToSnakeCase` is idempotent: applied to its own
result it returns that result; the result is empty (the input was
rejected) or passes the check of `ToSnakeCase` itself. -/
theorem C22_snake_idempotent_ascii (T : UnicodeTables) (s : GoString)
    (hascii : ∀ b ∈ s, b < 0x80) :
    ToSnakeCase T (ToSnakeCase T s) = ToSnakeCase T s
      ∧ (ToSnakeCase T s = [] ∨ snakeAccepts T (ToSnakeCase T s) = true) := by
  by_cases hacc : snakeAccepts T s = true
  · cases s with
    | nil => simp [snakeAccepts] at hacc
    | cons a t =>
      have hout : ∀ b ∈ asciiLower a :: asciiTail a false t, b < 0x80 := by
        intro b hb
        rcases List.mem_cons.mp hb with hb | hb
        · rw [hb]; exact asciiLower_lt a (hascii a (List.mem_cons_self _ _))
        · exact asciiTail_ascii t a false
            (fun x hx => hascii x (List.mem_cons_of_mem _ hx)) b hb
      have hacc2 := snakeAccepts_output T a t hascii hacc
      rw [ToSnakeCase_ascii T a t hascii hacc]
      refine ⟨?_, Or.inr hacc2⟩
      rw [ToSnakeCase_ascii T _ _ hout hacc2, (asciiLower_facts a).2.2.2.2,
        asciiTail_idem t a (asciiLower a) false (Or.inr ⟨rfl, rfl⟩)]
  · have hacc' : snakeAccepts T s = false := by simpa using hacc
    rw [ToSnakeCase_of_not_accepts T s hacc']
    exact ⟨rfl, Or.inl rfl⟩

/-- C22 at `hello2World` (result `hello_2_world`), at `foo-.bar` (result
`foo_.bar`), at `a 1B` (result `a _1_b`) and at the invalid `foo-` (result
empty). -/
theorem C22_snake_idempotent_ascii_witness :
    ToSnakeCase noTables (ToSnakeCase noTables (str "hello2World"))
        = ToSnakeCase noTables (str "hello2World")
      ∧ ToSnakeCase noTables (str "hello2World") = str "hello_2_world"
      ∧ ToSnakeCase noTables (ToSnakeCase noTables (str "foo-.bar"))
        = ToSnakeCase noTables (str "foo-.bar")
      ∧ ToSnakeCase noTables (str "foo-.bar") = str "foo_.bar"
      ∧ ToSnakeCase noTables (ToSnakeCase noTables (str "a 1B"))
        = ToSnakeCase noTables (str "a 1B")
      ∧ ToSnakeCase noTables (str "a 1B") = str "a _1_b"
      ∧ ToSnakeCase noTables (ToSnakeCase noTables (str "foo-"))
        = ToSnakeCase noTables (str "foo-")
      ∧ ToSnakeCase noTables (str "foo-") = str "" :=
  ⟨(C22_snake_idempotent_ascii noTables (str "hello2World") (by decide)).1, by decide,
   (C22_snake_idempotent_ascii noTables (str "foo-.bar") (by decide)).1, by decide,
   (C22_snake_idempotent_ascii noTables (str "a 1B") (by decide)).1, by decide,
   (C22_snake_idempotent_ascii noTables (str "foo-") (by decide)).1, by decide⟩

end Querystring
